import Mathlib

/-!
Verification of the fsm-rs repository (regex-thompson NFA compiler and matcher,
generic arena-backed DFA, fsm-acceptor NFA state).  The definitions below are a
shallow embedding of the Rust sources:

* `RegexThompson` embeds `src/regex-thompson/src/lib.rs`: the `State`/`Nfa`
  data model, the Thompson builders (`symbol`, `concat`, `union`, `closure`),
  the pattern preprocessor and the shunting-yard infix-to-postfix conversion,
  `parse`, the worklist epsilon closure, and the subset-simulation `matches`.
  Rust `HashMap<char, usize>` is embedded as `Char → Option Nat` (at most one
  destination per symbol, insertion overwrites), `HashSet<usize>` /
  `BTreeSet<usize>` as `Finset Nat`.  Fallible operations (`unwrap`ped pops)
  return `Option`.  The mutable automaton is threaded explicitly.
* `Fsm` embeds `src/fsm/src/util/arena.rs` and `src/fsm/src/dfa/mod.rs`.
* `FsmAcceptor` embeds `src/fsm-acceptor/src/nfa/state.rs` (multimap-backed
  transitions).
-/

namespace RegexThompson

/-- Embeds `State` (regex-thompson).  `transitions: HashMap<char, usize>` is a
partial map from symbols to a single destination; `epsilon_transitions:
HashSet<usize>` is a finite set of destinations, embedded as its list of
members (duplicate-free by construction; a hash set iterates in unspecified
order, so any order is faithful). -/
structure State where
  id : Nat
  accepting : Bool
  transitions : Char → Option Nat
  epsilon_transitions : List Nat

/-- Embeds `State::new`. -/
def State.new (id : Nat) (accepting : Bool) : State :=
  { id := id, accepting := accepting, transitions := fun _ => none,
    epsilon_transitions := [] }

/-- Embeds `state.transitions.insert(c, to)`: a `HashMap` insert overwrites any
previous destination stored for the same key. -/
def State.insertTransition (st : State) (c : Char) (dst : Nat) : State :=
  { st with transitions := fun x => if x = c then some dst else st.transitions x }

/-- Embeds `state.epsilon_transitions.insert(to)`: a set insert is a no-op on
an already-present member. -/
def State.insertEps (st : State) (dst : Nat) : State :=
  { st with
    epsilon_transitions :=
      if dst ∈ st.epsilon_transitions then st.epsilon_transitions
      else st.epsilon_transitions ++ [dst] }

/-- Embeds `state.accepting = b`. -/
def State.setAccepting (st : State) (b : Bool) : State :=
  { st with accepting := b }

/-- Embeds `Fragment { start, end }`.  The source field `end` is a Lean
keyword, so it is called `stop` here. -/
structure Fragment where
  start : Nat
  stop : Nat

/-- Embeds `Nfa { states: Vec<State> }`. -/
structure Nfa where
  states : List State

/-- Embeds `Nfa::new`. -/
def Nfa.new : Nfa := ⟨[]⟩

/-- Total lookup of a state.  In Rust an out-of-range index panics; all
operations of the library only index allocated states, for which this agrees
with the source.  The default is an inert state (no transitions, not
accepting). -/
def Nfa.stateD (nfa : Nfa) (i : Nat) : State :=
  nfa.states.getD i (State.new 0 false)

/-- Epsilon successors of a state (empty for out-of-range indices). -/
def Nfa.epsOf (nfa : Nfa) (i : Nat) : List Nat :=
  (nfa.stateD i).epsilon_transitions

/-- Embeds `Nfa::new_state`: push `State::new(len, accepting)` and return its
index. -/
def Nfa.new_state (nfa : Nfa) (accepting : Bool) : Nat × Nfa :=
  (nfa.states.length, ⟨nfa.states ++ [State.new nfa.states.length accepting]⟩)

/-- Embeds an update through `state_mut(i)` (a no-op out of range, where the
source would panic; never exercised by the library). -/
def Nfa.modifyState (nfa : Nfa) (i : Nat) (f : State → State) : Nfa :=
  ⟨nfa.states.set i (f (nfa.stateD i))⟩

/-- Embeds `Nfa::symbol`. -/
def Nfa.symbol (nfa : Nfa) (c : Char) : Fragment × Nfa :=
  let p1 := nfa.new_state false
  let p2 := p1.2.new_state true
  let nfa3 := p2.2.modifyState p1.1 (fun st => st.insertTransition c p2.1)
  (⟨p1.1, p2.1⟩, nfa3)

/-- Embeds `Nfa::concat`. -/
def Nfa.concat (nfa : Nfa) (f1 f2 : Fragment) : Fragment × Nfa :=
  let nfa1 := nfa.modifyState f1.stop (fun st => st.insertEps f2.start)
  let nfa2 := nfa1.modifyState f1.stop (fun st => st.setAccepting false)
  (⟨f1.start, f2.stop⟩, nfa2)

/-- Embeds `Nfa::union`. -/
def Nfa.union (nfa : Nfa) (f1 f2 : Fragment) : Fragment × Nfa :=
  let p1 := nfa.new_state false
  let p2 := p1.2.new_state true
  let nfa1 := p2.2.modifyState p1.1 (fun st => st.insertEps f1.start)
  let nfa2 := nfa1.modifyState p1.1 (fun st => st.insertEps f2.start)
  let nfa3 := nfa2.modifyState f1.stop (fun st => st.insertEps p2.1)
  let nfa4 := nfa3.modifyState f2.stop (fun st => st.insertEps p2.1)
  let nfa5 := nfa4.modifyState f1.stop (fun st => st.setAccepting false)
  let nfa6 := nfa5.modifyState f2.stop (fun st => st.setAccepting false)
  (⟨p1.1, p2.1⟩, nfa6)

/-- Embeds `Nfa::closure`. -/
def Nfa.closure (nfa : Nfa) (f : Fragment) : Fragment × Nfa :=
  let p1 := nfa.new_state false
  let p2 := p1.2.new_state true
  let nfa1 := p2.2.modifyState p1.1 (fun st => st.insertEps f.start)
  let nfa2 := nfa1.modifyState p1.1 (fun st => st.insertEps p2.1)
  let nfa3 := nfa2.modifyState f.stop (fun st => st.insertEps f.start)
  let nfa4 := nfa3.modifyState f.stop (fun st => st.insertEps p2.1)
  let nfa5 := nfa4.modifyState f.stop (fun st => st.setAccepting false)
  (⟨p1.1, p2.1⟩, nfa5)

/-- Fuel bound for the worklist loop of `multi_epsilon_closure`: the Rust
`while let Some(state) = stack.pop()` loop pops at most
`start.len() + Σ |epsilon_transitions|` times, since every state is expanded
at most once. -/
def Nfa.epsTotal (nfa : Nfa) : Nat :=
  (nfa.states.map (fun st => st.epsilon_transitions.length)).sum

/-- Embeds the worklist loop of `Nfa::multi_epsilon_closure`.  The list head is
the top of the `Vec` stack; the successors of a newly visited state are pushed
(their order is immaterial — the source iterates a `HashSet` in unspecified
order).  The loop is given explicit fuel; `multi_epsilon_closure` passes more
fuel than the loop can consume, so the `0` case is never reached. -/
def closureLoopF (nfa : Nfa) : Nat → List Nat → Finset Nat → Finset Nat
  | 0, _, visited => visited
  | _ + 1, [], visited => visited
  | fuel + 1, s :: stack, visited =>
    if s ∈ visited then closureLoopF nfa fuel stack visited
    else closureLoopF nfa fuel (nfa.epsOf s ++ stack) (insert s visited)

/-- Embeds `Nfa::multi_epsilon_closure`. -/
def Nfa.multi_epsilon_closure (nfa : Nfa) (start : List Nat) : Finset Nat :=
  closureLoopF nfa (start.length + nfa.epsTotal + 1) start ∅

/-- Embeds `Nfa::epsilon_closure`. -/
def Nfa.epsilon_closure (nfa : Nfa) (start : Nat) : Finset Nat :=
  nfa.multi_epsilon_closure [start]

/-- The contribution of one active state to the next state set in
`Nfa::matches`: follow the exact transition on `c` if present, otherwise fall
back to the wildcard transition on `'.'` if present, otherwise contribute
nothing. -/
def Nfa.stateContrib (nfa : Nfa) (c : Char) (s : Nat) : Finset Nat :=
  match (nfa.stateD s).transitions c with
  | some next => nfa.epsilon_closure next
  | none =>
    match (nfa.stateD s).transitions '.' with
    | some next => nfa.epsilon_closure next
    | none => ∅

/-- One iteration of the `for c in s.chars()` loop of `Nfa::matches`: the next
state set is the union of the contributions of all current states. -/
def Nfa.stepChar (nfa : Nfa) (current : Finset Nat) (c : Char) : Finset Nat :=
  current.biUnion (nfa.stateContrib c)

/-- Embeds `Nfa::matches`. -/
def Nfa.matches (nfa : Nfa) (start : Nat) (s : List Char) : Bool :=
  let final := s.foldl nfa.stepChar (nfa.epsilon_closure start)
  decide (∃ st ∈ final, (nfa.stateD st).accepting = true)

/-- Embeds one step of `insert_explicit_concat_operator`: state is the output
built so far together with `prev_char`. -/
def iecoStep (acc : List Char × Option Char) (token : Char) : List Char × Option Char :=
  let output :=
    match acc.2 with
    | some prev =>
      if ¬(prev = '(' ∨ prev = '|') ∧
          ¬(token = '*' ∨ token = '?' ∨ token = '+' ∨ token = '|' ∨ token = ')') then
        acc.1 ++ ['\x00']
      else acc.1
    | none => acc.1
  (output ++ [token], some token)

/-- Embeds `insert_explicit_concat_operator`. -/
def insert_explicit_concat_operator (pattern : List Char) : List Char :=
  (pattern.foldl iecoStep ([], none)).1

/-- The `operator_precedence` table of `to_postfix`, total with default `0`;
both source lookup sites only consult it on the five operator characters,
where it agrees with the source map (a missing key would panic there). -/
def precD (c : Char) : Int :=
  if c = '|' then 0
  else if c = '\x00' then 1
  else if c = '?' ∨ c = '*' ∨ c = '+' then 2
  else 0

/-- Embeds the inner `while` loop popping operators of greater-or-equal
precedence (stops at `'('`). Returns the extended output and remaining
operator stack; the list head is the stack top. -/
def popGe (opstack : List Char) (token : Char) (output : List Char) :
    List Char × List Char :=
  match opstack with
  | [] => (output, [])
  | top :: rest =>
    if top ≠ '(' ∧ precD token ≤ precD top then popGe rest token (output ++ [top])
    else (output, top :: rest)

/-- Embeds the `while` loop run for a `')'` token: pop to output until a `'('`
is found (or the stack empties). -/
def popToParen (opstack : List Char) (output : List Char) :
    List Char × List Char :=
  match opstack with
  | [] => (output, [])
  | top :: rest =>
    if top ≠ '(' then popToParen rest (output ++ [top])
    else (output, top :: rest)

/-- Embeds one iteration of the shunting-yard loop of `to_postfix`. -/
def toPostfixStep (acc : List Char × List Char) (token : Char) :
    List Char × List Char :=
  let (output, opstack) := acc
  if token = '(' then (output, token :: opstack)
  else if token = ')' then
    let (output1, st1) := popToParen opstack output
    (output1, st1.drop 1)
  else if token = '\x00' ∨ token = '|' ∨ token = '*' ∨ token = '?' ∨ token = '+' then
    let (output1, st1) := popGe opstack token output
    (output1, token :: st1)
  else (output ++ [token], opstack)

/-- Embeds `to_postfix` (the trailing loop drains the operator stack top
first, i.e. in list order). -/
def toPostfix (pattern : List Char) : List Char :=
  let (output, opstack) := pattern.foldl toPostfixStep ([], [])
  output ++ opstack

/-- Embeds one iteration of the token loop of `Nfa::parse`.  The fragment
stack has its top at the list head; an `unwrap`ped pop from an empty stack
(the source panics) yields `none`. -/
def parseStep (token : Char) (st : List Fragment × Nfa) :
    Option (List Fragment × Nfa) :=
  if token = '\x00' then
    match st.1 with
    | f2 :: f1 :: rest =>
      let r := st.2.concat f1 f2
      some (r.1 :: rest, r.2)
    | _ => none
  else if token = '|' then
    match st.1 with
    | f2 :: f1 :: rest =>
      let r := st.2.union f1 f2
      some (r.1 :: rest, r.2)
    | _ => none
  else if token = '*' then
    match st.1 with
    | f :: rest =>
      let r := st.2.closure f
      some (r.1 :: rest, r.2)
    | _ => none
  else
    let r := st.2.symbol token
    some (r.1 :: st.1, r.2)

/-- The token loop of `Nfa::parse`. -/
def parseLoop : List Char → List Fragment × Nfa → Option (List Fragment × Nfa)
  | [], st => some st
  | t :: ts, st => (parseStep t st).bind (parseLoop ts)

/-- Embeds the final `stack.into_iter().reduce(|f1, f2| self.concat(f1, f2))`
of `Nfa::parse`; `reduce` consumes the `Vec` bottom-up, so the argument here
is the reversed fragment stack.  The `unwrap` of an empty reduction yields
`none`. -/
def reduceStack : List Fragment → Nfa → Option (Fragment × Nfa)
  | [], _ => none
  | f :: fs, nfa =>
    some (fs.foldl (fun acc f2 => acc.2.concat acc.1 f2) (f, nfa))

/-- Embeds `Nfa::parse`. -/
def Nfa.parse (nfa : Nfa) (pattern : List Char) : Option (Fragment × Nfa) :=
  let post := toPostfix (insert_explicit_concat_operator pattern)
  (parseLoop post ([], nfa)).bind (fun st => reduceStack st.1.reverse st.2)

/-- Embeds `Regex { states, start }`. -/
structure Regex where
  states : Nfa
  start : Nat

/-- Embeds `Regex::new` (a parse panic becomes `none`). -/
def Regex.new (pattern : List Char) : Option Regex :=
  match Nfa.new.parse pattern with
  | some (f, nfa) => some ⟨nfa, f.start⟩
  | none => none

/-- Embeds `Regex::matches`. -/
def Regex.matches (re : Regex) (s : List Char) : Bool :=
  re.states.matches re.start s

/-- Embeds the free function `is_match` (a compile panic becomes `none`). -/
def is_match (pattern input : List Char) : Option Bool :=
  (Regex.new pattern).map (fun re => re.matches input)

end RegexThompson

namespace Fsm

/-- Embeds `Arena<T>` (fsm util). -/
structure Arena (T : Type) where
  items : List T

/-- Embeds `Arena::new`. -/
def Arena.new (T : Type) : Arena T := ⟨[]⟩

/-- Embeds `Arena::next_id`. -/
def Arena.next_id {T : Type} (a : Arena T) : Nat := a.items.length

/-- Embeds `Arena::alloc_with_id`. -/
def Arena.alloc_with_id {T : Type} (a : Arena T) (f : Nat → T) : Nat × Arena T :=
  (a.next_id, ⟨a.items ++ [f a.next_id]⟩)

/-- Embeds `Arena::alloc`. -/
def Arena.alloc {T : Type} (a : Arena T) (item : T) : Nat × Arena T :=
  a.alloc_with_id (fun _ => item)

/-- Modelled from the spec: the DFA `State` of `fsm/src/dfa/state.rs` is not
among the provided sources (only `dfa/mod.rs` is).  Per the spec, a
deterministic state holds an acceptance flag and "at most one destination per
symbol" with "no epsilon transitions"; `State::next(symbol)` looks up the
unique transition.  The transition table is therefore a partial map. -/
structure DState (A : Type) where
  id : Nat
  accepting : Bool
  next : A → Option Nat

/-- Modelled from the spec: `State::new(id, accepting)` with an empty
transition table. -/
def DState.new {A : Type} (id : Nat) (accepting : Bool) : DState A :=
  { id := id, accepting := accepting, next := fun _ => none }

/-- Modelled from the spec: `State::add_transition` stores the unique
destination for a symbol (at most one per symbol in a DFA). -/
def DState.add_transition {A : Type} [DecidableEq A] (st : DState A)
    (symbol : A) (dst : Nat) : DState A :=
  { st with next := fun x => if x = symbol then some dst else st.next x }

/-- Embeds `Dfa<A>` (fsm). -/
structure Dfa (A : Type) where
  states : Arena (DState A)

/-- Embeds `Dfa::new`. -/
def Dfa.new (A : Type) : Dfa A := ⟨Arena.new (DState A)⟩

/-- Total state lookup (the source panics out of range; the library only
indexes allocated states). -/
def Dfa.stateD {A : Type} (dfa : Dfa A) (i : Nat) : DState A :=
  dfa.states.items.getD i (DState.new 0 false)

/-- Embeds `Dfa::add_state`. -/
def Dfa.add_state {A : Type} (dfa : Dfa A) (accepting : Bool) : Nat × Dfa A :=
  let (id, arena) := dfa.states.alloc_with_id (fun id => DState.new id accepting)
  (id, ⟨arena⟩)

/-- Embeds `Dfa::add_transition`. -/
def Dfa.add_transition {A : Type} [DecidableEq A] (dfa : Dfa A)
    (from_ : Nat) (symbol : A) (dst : Nat) : Dfa A :=
  ⟨⟨dfa.states.items.set from_ ((dfa.stateD from_).add_transition symbol dst)⟩⟩

/-- Embeds `Dfa::next`. -/
def Dfa.next {A : Type} (dfa : Dfa A) (current_state : Nat) (symbol : A) :
    Option Nat :=
  (dfa.stateD current_state).next symbol

/-- The symbol loop of `Dfa::accepts`: walk from `current_state`, returning
`false` as soon as a symbol has no transition; after the word is exhausted,
return the acceptance flag of the state reached. -/
def Dfa.acceptsGo {A : Type} (dfa : Dfa A) (current_state : Nat) :
    List A → Bool
  | [] => (dfa.stateD current_state).accepting
  | symbol :: rest =>
    match dfa.next current_state symbol with
    | some next_state => dfa.acceptsGo next_state rest
    | none => false

/-- Embeds `Dfa::accepts`. -/
def Dfa.accepts {A : Type} (dfa : Dfa A) (word : List A) : Bool :=
  if dfa.states.items.isEmpty then false
  else dfa.acceptsGo 0 word

end Fsm

namespace FsmAcceptor

/-- Embeds the `multimap::MultiMap<A, StateId>` used by the fsm-acceptor NFA
state, as an association list in insertion order: `insert` appends the new
value to those already stored for the key. -/
def mmInsert {A : Type} (m : List (A × Nat)) (key : A) (value : Nat) :
    List (A × Nat) :=
  m ++ [(key, value)]

/-- Embeds `MultiMap::get_vec`: all values stored for a key, in insertion
order, or `none` if the key is absent. -/
def mmGetVec {A : Type} [DecidableEq A] (m : List (A × Nat)) (key : A) :
    Option (List Nat) :=
  let vs := (m.filter (fun p => p.1 = key)).map (fun p => p.2)
  if vs.isEmpty then none else some vs

/-- Embeds `State<A>` (fsm-acceptor NFA). -/
structure AState (A : Type) where
  id : Nat
  accepting : Bool
  transitions : List (A × Nat)
  epsilon_transitions : List Nat

/-- Embeds `State::new`. -/
def AState.new {A : Type} (id : Nat) (accepting : Bool) : AState A :=
  { id := id, accepting := accepting, transitions := [],
    epsilon_transitions := [] }

/-- Embeds `State::add_transition` (a multimap insert: destinations
accumulate). -/
def AState.add_transition {A : Type} (st : AState A) (symbol : A) (dst : Nat) :
    AState A :=
  { st with transitions := mmInsert st.transitions symbol dst }

/-- Embeds `State::add_epsilon_transition` (a set insert). -/
def AState.add_epsilon_transition {A : Type} (st : AState A) (dst : Nat) :
    AState A :=
  { st with
    epsilon_transitions :=
      if dst ∈ st.epsilon_transitions then st.epsilon_transitions
      else st.epsilon_transitions ++ [dst] }

/-- Embeds `State::next`. -/
def AState.next {A : Type} [DecidableEq A] (st : AState A) (symbol : A) :
    Option (List Nat) :=
  mmGetVec st.transitions symbol

end FsmAcceptor

/-!
Specification-side definitions used by the theorems below.
-/

namespace RegexThompson

/-- Reachability along epsilon transitions (reflexive-transitive closure of
the one-step epsilon relation). -/
def Nfa.Reach (nfa : Nfa) : Nat → Nat → Prop :=
  Relation.ReflTransGen (fun a b => b ∈ nfa.epsOf a)

/-- Potential of a worklist configuration: the stack size plus the total
number of epsilon edges out of in-range states not yet visited.  Every
iteration of the worklist loop strictly decreases it, so it bounds the
remaining number of iterations. -/
def Nfa.phi (nfa : Nfa) (stack : List Nat) (visited : Finset Nat) : Nat :=
  stack.length +
    ((Finset.range nfa.states.length).filter (fun i => i ∉ visited)).sum
      (fun i => (nfa.epsOf i).length)

/-- A literal pattern character: not one of the seven characters with special
meaning to the preprocessor, the postfix converter, or the parser
(`\0 | * ? + ( )`). -/
def isLit (c : Char) : Prop :=
  c ≠ '\x00' ∧ c ≠ '|' ∧ c ≠ '*' ∧ c ≠ '?' ∧ c ≠ '+' ∧ c ≠ '(' ∧ c ≠ ')'

instance (c : Char) : Decidable (isLit c) := by
  unfold isLit
  infer_instance

/-- The preprocessor output for a pattern of literal symbols: an explicit
concatenation marker before every symbol after the first. -/
def preLit : List Char → List Char
  | [] => []
  | c :: ds => c :: ds.flatMap (fun d => ['\x00', d])

/-- The postfix form of a pattern of literal symbols: every symbol after the
first is followed by a concatenation operator. -/
def postLit : List Char → List Char
  | [] => []
  | c :: ds => c :: ds.flatMap (fun d => [d, '\x00'])

/-- An operator-stack suffix on which a pop loop for the concatenation
operator stops immediately: empty, or headed by `'('` or an operator of
precedence below concatenation. -/
def blocksOne (bot : List Char) : Prop :=
  ∀ t, bot.head? = some t → t = '(' ∨ precD t < 1

/-- Whether input symbol `d` is accepted at a chain position holding pattern
symbol `c`: exact match, or `c` is the wildcard `'.'` (the matcher falls back
to a `'.'` transition when no exact transition exists). -/
def charOK (c d : Char) : Bool :=
  d == c || c == '.'

/-- Whether an input word is accepted by a literal chain: same length as the
remaining pattern and every symbol accepted position-wise. -/
def chainAcceptList : List Char → List Char → Bool
  | [], [] => true
  | c :: cs, d :: ds => charOK c d && chainAcceptList cs ds
  | _, _ => false

/-- Repeat a pattern `n` times (the `repeat(p, n)` of the closure law). -/
def repeatPat (p : List Char) (n : Nat) : List Char :=
  (List.replicate n p).flatten

/-- The state layout produced by compiling a nonempty pattern of literal
symbols `cs` into states `L, L+1, …, L+2|cs|-1` of an automaton: state
`L+2i` carries the single symbol transition on `cs[i]` to `L+2i+1`; state
`L+2i+1` epsilon-steps to `L+2i+2`, except the last one, which either is the
accepting exit of the fragment (`sink = none`) or — once the fragment has been
consumed by a union — epsilon-steps to the accepting state `u`
(`sink = some u`) and is itself no longer accepting. -/
structure ChainShape (nfa : Nfa) (L : Nat) (cs : List Char) (sink : Option Nat) : Prop where
  ne : cs ≠ []
  evenTrans : ∀ i, i < cs.length → ∀ x,
    (nfa.stateD (L + 2*i)).transitions x =
      if x = cs.getD i ' ' then some (L + 2*i + 1) else none
  evenEps : ∀ i, i < cs.length → nfa.epsOf (L + 2*i) = []
  evenAcc : ∀ i, i < cs.length → (nfa.stateD (L + 2*i)).accepting = false
  oddTrans : ∀ i, i < cs.length → ∀ x, (nfa.stateD (L + 2*i + 1)).transitions x = none
  oddEpsMid : ∀ i, i + 1 < cs.length → nfa.epsOf (L + 2*i + 1) = [L + 2*i + 2]
  oddAccMid : ∀ i, i + 1 < cs.length → (nfa.stateD (L + 2*i + 1)).accepting = false
  oddEpsLast : nfa.epsOf (L + 2*cs.length - 1) = (sink.map (fun u => [u])).getD []
  oddAccLast : (nfa.stateD (L + 2*cs.length - 1)).accepting = sink.isNone
  sinkTrans : ∀ u, sink = some u → ∀ x, (nfa.stateD u).transitions x = none
  sinkEps : ∀ u, sink = some u → nfa.epsOf u = []
  sinkAcc : ∀ u, sink = some u → (nfa.stateD u).accepting = true

/-- The active state set of the subset simulation of a chain after `j` input
symbols have been consumed without a mismatch. -/
def chainDom (L n j : Nat) (sink : Option Nat) : Finset Nat :=
  if j = 0 then {L}
  else if j < n then {L + 2*j - 1, L + 2*j}
  else (sink.map (fun u => ({L + 2*n - 1, u} : Finset Nat))).getD {L + 2*n - 1}

/-- The automaton built by compiling a single-symbol starred pattern `c*`:
a symbol fragment for `c` wrapped in a closure fragment. -/
def starNfa (c : Char) : Nfa :=
  ((Nfa.new.symbol c).2.closure (Nfa.new.symbol c).1).2

/-- An automaton built by a sequence of `new_state` calls. -/
def Nfa.buildStates (ops : List Bool) : Nfa :=
  ops.foldl (fun n b => (n.new_state b).2) Nfa.new

/-- Identifier invariant: the state stored at index `i` has identifier `i`. -/
def Nfa.idsDense (nfa : Nfa) : Prop :=
  ∀ i (h : i < nfa.states.length), (nfa.states.get ⟨i, h⟩).id = i

/-- Invariant of the fragment stack during `Nfa::parse`: all fragment
endpoints are allocated, the exit states of the stacked fragments are pairwise
distinct, and a state is accepting exactly when it is the exit state of a
stacked fragment. -/
def StackInv (nfa : Nfa) (stack : List Fragment) : Prop :=
  (∀ f ∈ stack, f.start < nfa.states.length ∧ f.stop < nfa.states.length) ∧
  (stack.map Fragment.stop).Nodup ∧
  ∀ i, i < nfa.states.length →
    ((nfa.stateD i).accepting = true ↔ i ∈ stack.map Fragment.stop)

/-- A small concrete automaton with an epsilon cycle, used to instantiate
closure theorems. -/
def sampleNfa : Nfa :=
  ⟨[⟨0, false, fun _ => none, [1]⟩,
    ⟨1, false, fun _ => none, [2, 0]⟩,
    ⟨2, true, fun _ => none, []⟩]⟩

/-- A small concrete automaton whose state 0 has both an exact transition on
`'a'` and a wildcard transition on `'.'`, with distinct destinations, used to
instantiate the fallback-precedence theorem. -/
def wildNfa : Nfa :=
  ⟨[⟨0, false, fun x => if x = 'a' then some 1 else if x = '.' then some 2 else none, []⟩,
    ⟨1, true, fun _ => none, []⟩,
    ⟨2, true, fun _ => none, []⟩]⟩

end RegexThompson

namespace Fsm

/-- The walk of `Dfa::accepts` as a partial function: the state reached after
consuming the word, or `none` if some symbol had no outgoing transition. -/
def Dfa.run {A : Type} (dfa : Dfa A) (s : Nat) : List A → Option Nat
  | [] => some s
  | a :: rest =>
    match dfa.next s a with
    | some t => dfa.run t rest
    | none => none

/-- An automaton built by a sequence of `add_state` calls. -/
def Dfa.buildStates (A : Type) (ops : List Bool) : Dfa A :=
  ops.foldl (fun d b => (d.add_state b).2) (Dfa.new A)

/-- Identifier invariant: the state stored at index `i` has identifier `i`. -/
def Dfa.idsDense {A : Type} (dfa : Dfa A) : Prop :=
  ∀ i (h : i < dfa.states.items.length), (dfa.states.items.get ⟨i, h⟩).id = i

/-- The two-state automaton of the source test `test_simple_dfa`, over `Bool`
(`true` for `One`, `false` for `Zero`): state 0 accepting, `One` self-loops,
`Zero` switches states; it accepts exactly the words with an even number of
`Zero`s. -/
def evenZeros : Dfa Bool :=
  let d0 := Dfa.new Bool
  let p1 := d0.add_state true
  let p2 := p1.2.add_state false
  let d3 := p2.2.add_transition p1.1 true p1.1
  let d4 := d3.add_transition p2.1 true p2.1
  let d5 := d4.add_transition p1.1 false p2.1
  d5.add_transition p2.1 false p1.1

end Fsm

/-!
Theorems.  First a small kit about state lookup and the two mutators, then
the characterization of the worklist epsilon closure as epsilon reachability,
which most later results build on.
-/

namespace RegexThompson

theorem length_new_state (nfa : Nfa) (b : Bool) :
    ((nfa.new_state b).2).states.length = nfa.states.length + 1 := by
  simp [Nfa.new_state]

theorem fst_new_state (nfa : Nfa) (b : Bool) :
    (nfa.new_state b).1 = nfa.states.length := rfl

theorem stateD_new_state_ne (nfa : Nfa) (b : Bool) (i : Nat)
    (h : i ≠ nfa.states.length) :
    ((nfa.new_state b).2).stateD i = nfa.stateD i := by
  rcases Nat.lt_or_ge i nfa.states.length with hlt | hge
  · simp only [Nfa.new_state, Nfa.stateD, List.getD_eq_getElem?_getD]
    rw [List.getElem?_append_left hlt]
  · have h1 : nfa.states.length < i := lt_of_le_of_ne hge (Ne.symm h)
    simp only [Nfa.new_state, Nfa.stateD]
    rw [List.getD_eq_default, List.getD_eq_default]
    · omega
    · simp
      omega

theorem stateD_new_state_self (nfa : Nfa) (b : Bool) :
    ((nfa.new_state b).2).stateD nfa.states.length =
      State.new nfa.states.length b := by
  simp [Nfa.new_state, Nfa.stateD]

theorem length_modifyState (nfa : Nfa) (i : Nat) (f : State → State) :
    (nfa.modifyState i f).states.length = nfa.states.length := by
  simp [Nfa.modifyState]

theorem stateD_modifyState_ne (nfa : Nfa) (i : Nat) (f : State → State)
    (j : Nat) (h : j ≠ i) :
    (nfa.modifyState i f).stateD j = nfa.stateD j := by
  simp only [Nfa.modifyState, Nfa.stateD]
  rcases Nat.lt_or_ge j nfa.states.length with hlt | hge
  · rw [List.getD_eq_getElem?_getD, List.getElem?_set_ne (Ne.symm h),
      ← List.getD_eq_getElem?_getD]
  · rw [List.getD_eq_default, List.getD_eq_default] <;> simpa

theorem stateD_modifyState_self (nfa : Nfa) (i : Nat) (f : State → State)
    (h : i < nfa.states.length) :
    (nfa.modifyState i f).stateD i = f (nfa.stateD i) := by
  simp only [Nfa.modifyState, Nfa.stateD]
  rw [List.getD_eq_getElem?_getD, List.getElem?_set_self' ]
  simp [h, List.getD_eq_getElem?_getD]

theorem epsOf_out_of_range (nfa : Nfa) (s : Nat)
    (h : nfa.states.length ≤ s) : nfa.epsOf s = [] := by
  simp only [Nfa.epsOf, Nfa.stateD]
  rw [List.getD_eq_default]
  · rfl
  · omega

end RegexThompson

namespace RegexThompson

theorem reach_refl (nfa : Nfa) (a : Nat) : nfa.Reach a a :=
  Relation.ReflTransGen.refl

theorem reach_head (nfa : Nfa) (a b x : Nat) (hab : b ∈ nfa.epsOf a)
    (hbx : nfa.Reach b x) : nfa.Reach a x :=
  Relation.ReflTransGen.head hab hbx

theorem reach_single (nfa : Nfa) (a b : Nat) (hab : b ∈ nfa.epsOf a) :
    nfa.Reach a b :=
  Relation.ReflTransGen.single hab

/-- Reachability from a visited state, when every visited state has all its
epsilon successors visited or on the stack, ends in a visited state or passes
through a stack state. -/
theorem reach_absorb (nfa : Nfa) (stack : List Nat) (visited : Finset Nat)
    (hinv : ∀ v ∈ visited, ∀ t ∈ nfa.epsOf v, t ∈ visited ∨ t ∈ stack)
    (s x : Nat) (hr : nfa.Reach s x) (hs : s ∈ visited) :
    x ∈ visited ∨ ∃ r ∈ stack, nfa.Reach r x := by
  revert hs
  induction hr using Relation.ReflTransGen.head_induction_on with
  | refl => exact fun hx => Or.inl hx
  | head h1 h2 ih =>
    intro ha
    rcases hinv _ ha _ h1 with hc | hc
    · exact ih hc
    · exact Or.inr ⟨_, hc, h2⟩

/-- One fresh expansion strictly decreases the worklist potential. -/
theorem phi_decrease_fresh (nfa : Nfa) (s : Nat) (rest : List Nat)
    (visited : Finset Nat) (hs : s ∉ visited) :
    nfa.phi (nfa.epsOf s ++ rest) (insert s visited) + 1 =
      nfa.phi (s :: rest) visited := by
  by_cases hn : s < nfa.states.length
  · have hsF : s ∈ (Finset.range nfa.states.length).filter (fun i => i ∉ visited) := by
      simp [Finset.mem_filter, Finset.mem_range, hn, hs]
    have herase : (Finset.range nfa.states.length).filter (fun i => i ∉ insert s visited)
        = ((Finset.range nfa.states.length).filter (fun i => i ∉ visited)).erase s := by
      ext i
      simp only [Finset.mem_filter, Finset.mem_erase, Finset.mem_range,
        Finset.mem_insert, not_or]
      tauto
    have hsum : (∑ x ∈ ((Finset.range nfa.states.length).filter
          (fun i => i ∉ visited)).erase s, (nfa.epsOf x).length)
          + (nfa.epsOf s).length
        = ∑ x ∈ (Finset.range nfa.states.length).filter (fun i => i ∉ visited),
            (nfa.epsOf x).length :=
      Finset.sum_erase_add
        ((Finset.range nfa.states.length).filter (fun i => i ∉ visited))
        (fun i => (nfa.epsOf i).length) hsF
    simp only [Nfa.phi, herase, List.length_append, List.length_cons]
    omega
  · have heps : nfa.epsOf s = [] := epsOf_out_of_range nfa s (by omega)
    have heq : (Finset.range nfa.states.length).filter (fun i => i ∉ insert s visited)
        = (Finset.range nfa.states.length).filter (fun i => i ∉ visited) := by
      ext i
      simp only [Finset.mem_filter, Finset.mem_range, Finset.mem_insert, not_or]
      constructor
      · rintro ⟨h1, _, h3⟩
        exact ⟨h1, h3⟩
      · rintro ⟨h1, h2⟩
        exact ⟨h1, by omega, h2⟩
    simp only [Nfa.phi, heq, heps, List.length_append, List.length_cons,
      List.length_nil]
    omega

/-- Characterization of the worklist loop, assuming enough fuel and that every
visited state has its epsilon successors visited or stacked: the result is the
visited states together with everything epsilon-reachable from the stack. -/
theorem closureLoopF_spec (nfa : Nfa) :
    ∀ fuel stack visited, nfa.phi stack visited < fuel →
      (∀ v ∈ visited, ∀ t ∈ nfa.epsOf v, t ∈ visited ∨ t ∈ stack) →
      ∀ x, (x ∈ closureLoopF nfa fuel stack visited ↔
        x ∈ visited ∨ ∃ s ∈ stack, nfa.Reach s x) := by
  intro fuel
  induction fuel with
  | zero => intro stack visited hphi; omega
  | succ fu ih =>
    intro stack visited hphi hinv x
    match stack with
    | [] => simp [closureLoopF]
    | s :: rest =>
      by_cases hs : s ∈ visited
      · have hstep : closureLoopF nfa (fu + 1) (s :: rest) visited
            = closureLoopF nfa fu rest visited := by
          simp [closureLoopF, hs]
        have hphi2 : nfa.phi rest visited < fu := by
          have : nfa.phi (s :: rest) visited = nfa.phi rest visited + 1 := by
            simp only [Nfa.phi, List.length_cons]
            omega
          omega
        have hinv2 : ∀ v ∈ visited, ∀ t ∈ nfa.epsOf v, t ∈ visited ∨ t ∈ rest := by
          intro v hv t ht
          rcases hinv v hv t ht with h | h
          · exact Or.inl h
          · rcases List.mem_cons.mp h with rfl | h2
            · exact Or.inl hs
            · exact Or.inr h2
        rw [hstep, ih rest visited hphi2 hinv2 x]
        constructor
        · rintro (h | ⟨r, hr, hrx⟩)
          · exact Or.inl h
          · exact Or.inr ⟨r, List.mem_cons_of_mem _ hr, hrx⟩
        · rintro (h | ⟨r, hr, hrx⟩)
          · exact Or.inl h
          · rcases List.mem_cons.mp hr with rfl | hr2
            · exact reach_absorb nfa rest visited hinv2 r x hrx hs
            · exact Or.inr ⟨r, hr2, hrx⟩
      · have hstep : closureLoopF nfa (fu + 1) (s :: rest) visited
            = closureLoopF nfa fu (nfa.epsOf s ++ rest) (insert s visited) := by
          simp [closureLoopF, hs]
        have hphi2 : nfa.phi (nfa.epsOf s ++ rest) (insert s visited) < fu := by
          have := phi_decrease_fresh nfa s rest visited hs
          omega
        have hinv2 : ∀ v ∈ insert s visited, ∀ t ∈ nfa.epsOf v,
            t ∈ insert s visited ∨ t ∈ nfa.epsOf s ++ rest := by
          intro v hv t ht
          rcases Finset.mem_insert.mp hv with rfl | hv2
          · exact Or.inr (List.mem_append_left _ ht)
          · rcases hinv v hv2 t ht with h | h
            · exact Or.inl (Finset.mem_insert_of_mem h)
            · rcases List.mem_cons.mp h with rfl | h2
              · exact Or.inl (Finset.mem_insert_self _ _)
              · exact Or.inr (List.mem_append_right _ h2)
        rw [hstep, ih _ _ hphi2 hinv2 x]
        constructor
        · rintro (h | ⟨r, hr, hrx⟩)
          · rcases Finset.mem_insert.mp h with rfl | h2
            · exact Or.inr ⟨x, List.mem_cons_self _ _, reach_refl _ _⟩
            · exact Or.inl h2
          · rcases List.mem_append.mp hr with h1 | h2
            · exact Or.inr ⟨s, List.mem_cons_self _ _, reach_head nfa s r x h1 hrx⟩
            · exact Or.inr ⟨r, List.mem_cons_of_mem _ h2, hrx⟩
        · rintro (h | ⟨r, hr, hrx⟩)
          · exact Or.inl (Finset.mem_insert_of_mem h)
          · rcases List.mem_cons.mp hr with rfl | hr2
            · rcases Relation.ReflTransGen.cases_head hrx with rfl | ⟨t, ht, htx⟩
              · exact Or.inl (Finset.mem_insert_self _ _)
              · exact Or.inr ⟨t, List.mem_append_left _ ht, htx⟩
            · exact Or.inr ⟨r, List.mem_append_right _ hr2, hrx⟩

/-- Sum of a function of list entries, indexed form. -/
theorem sum_range_getD {α : Type} (l : List α) (d : α) (f : α → Nat) :
    (Finset.range l.length).sum (fun i => f (l.getD i d)) = (l.map f).sum := by
  induction l with
  | nil => simp
  | cons y ys ihy =>
    rw [List.length_cons, Finset.sum_range_succ']
    simp only [List.getD_cons_succ, List.getD_cons_zero, List.map_cons,
      List.sum_cons]
    rw [ihy]
    exact add_comm _ _

theorem phi_initial (nfa : Nfa) (start : List Nat) :
    nfa.phi start ∅ < start.length + nfa.epsTotal + 1 := by
  have h1 : (Finset.range nfa.states.length).filter (fun i => i ∉ (∅ : Finset Nat))
      = Finset.range nfa.states.length := by
    apply Finset.filter_true_of_mem
    intro i _
    exact Finset.not_mem_empty i
  have h2 : (Finset.range nfa.states.length).sum (fun i => (nfa.epsOf i).length)
      = nfa.epsTotal := by
    have := sum_range_getD nfa.states (State.new 0 false)
      (fun st => st.epsilon_transitions.length)
    simpa [Nfa.epsOf, Nfa.stateD, Nfa.epsTotal] using this
  simp only [Nfa.phi, h1, h2]
  omega

/-- Membership in `multi_epsilon_closure` is epsilon reachability from a
member of the start list. -/
theorem mem_multi_epsilon_closure (nfa : Nfa) (start : List Nat) (x : Nat) :
    x ∈ nfa.multi_epsilon_closure start ↔ ∃ s ∈ start, nfa.Reach s x := by
  rw [Nfa.multi_epsilon_closure,
    closureLoopF_spec nfa _ start ∅ (phi_initial nfa start) (by simp) x]
  simp

/-- Membership in `epsilon_closure` is epsilon reachability. -/
theorem mem_epsilon_closure (nfa : Nfa) (s x : Nat) :
    x ∈ nfa.epsilon_closure s ↔ nfa.Reach s x := by
  rw [Nfa.epsilon_closure, mem_multi_epsilon_closure]
  simp

/-- C6: epsilon-closure is idempotent: for every automaton and state `s` in
it, the multi-source closure of the members of `epsilon_closure(s)` is
`epsilon_closure(s)` itself. -/
theorem claim6_epsilon_closure_idempotent (nfa : Nfa) (s : Nat)
    (_hs : s < nfa.states.length) :
    nfa.multi_epsilon_closure ((nfa.epsilon_closure s).sort (· ≤ ·)) =
      nfa.epsilon_closure s := by
  ext x
  rw [mem_multi_epsilon_closure]
  constructor
  · rintro ⟨a, ha, hax⟩
    rw [Finset.mem_sort] at ha
    rw [mem_epsilon_closure] at ha ⊢
    exact ha.trans hax
  · intro hx
    refine ⟨s, ?_, (mem_epsilon_closure nfa s x).mp hx⟩
    rw [Finset.mem_sort, mem_epsilon_closure]
    exact reach_refl nfa s

theorem claim6_witness :
    0 < sampleNfa.states.length ∧
      sampleNfa.multi_epsilon_closure ((sampleNfa.epsilon_closure 0).sort (· ≤ ·)) =
        sampleNfa.epsilon_closure 0 :=
  ⟨by decide, claim6_epsilon_closure_idempotent sampleNfa 0 (by decide)⟩

end RegexThompson

namespace RegexThompson

/-- C5: in `Nfa::matches`, a state's wildcard transition is followed only as a
fallback: when the state has an exact transition on the input symbol, the next
state set receives exactly the epsilon closure of the exact destination, and
the wildcard destination is not additionally added (it appears only if the
exact destination's closure already contains it); the wildcard transition is
followed precisely when no exact transition exists. -/
theorem claim5_wildcard_fallback (nfa : Nfa) (s : Nat) (c : Char) :
    (∀ t, (nfa.stateD s).transitions c = some t →
      nfa.stepChar {s} c = nfa.epsilon_closure t ∧
      ∀ u, (nfa.stateD s).transitions '.' = some u →
        u ∉ nfa.epsilon_closure t → u ∉ nfa.stepChar {s} c) ∧
    ((nfa.stateD s).transitions c = none →
      ∀ u, (nfa.stateD s).transitions '.' = some u →
        nfa.stepChar {s} c = nfa.epsilon_closure u) := by
  constructor
  · intro t ht
    have h1 : nfa.stepChar {s} c = nfa.epsilon_closure t := by
      simp [Nfa.stepChar, Nfa.stateContrib, ht]
    refine ⟨h1, fun u _ hnot => ?_⟩
    rw [h1]
    exact hnot
  · intro hnone u hu
    simp [Nfa.stepChar, Nfa.stateContrib, hnone, hu]

theorem claim5_witness :
    (wildNfa.stateD 0).transitions 'a' = some 1 ∧
      (wildNfa.stateD 0).transitions '.' = some 2 ∧
      wildNfa.stepChar {0} 'a' = wildNfa.epsilon_closure 1 ∧
      2 ∉ wildNfa.stepChar {0} 'a' := by
  have H := (claim5_wildcard_fallback wildNfa 0 'a').1 1 (by decide)
  exact ⟨by decide, by decide, H.1, H.2 2 (by decide) (by decide)⟩

/-- C8 counterexample: in the regex-thompson `State`, the symbol-transition
table holds at most one destination per symbol, and inserting a second
transition on the same symbol replaces the first destination instead of
preserving both. -/
theorem claim8_counterexample :
    (((State.new 0 false).insertTransition 'a' 1).insertTransition 'a' 2).transitions 'a'
        = some 2 ∧
      (((State.new 0 false).insertTransition 'a' 1).insertTransition 'a' 2).transitions 'a'
        ≠ some 1 := by
  constructor
  · decide
  · decide

end RegexThompson

namespace FsmAcceptor

/-- C8 (amended): in the fsm-acceptor NFA `State`, the multimap-backed
transition table maps a symbol to the list of all destinations inserted for
it: adding a transition on a symbol appends its destination to those already
stored, so two inserts on the same symbol preserve both destinations. -/
theorem claim8_multimap_appends {A : Type} [DecidableEq A] (st : AState A)
    (a : A) (v1 v2 : Nat) :
    ((st.add_transition a v1).add_transition a v2).next a =
      some (((st.transitions.filter (fun p => p.1 = a)).map (fun p => p.2))
        ++ [v1, v2]) := by
  simp [AState.add_transition, AState.next, mmGetVec, mmInsert,
    List.filter_append, List.isEmpty_iff]

theorem claim8_witness :
    ((((AState.new 0 false : AState Char).add_transition 'a' 1).add_transition 'a' 2).next 'a')
      = some [1, 2] :=
  claim8_multimap_appends (AState.new 0 false) 'a' 1 2

end FsmAcceptor

namespace RegexThompson

/-- C10: compiling the empty pattern (or any pattern whose postfix form has no
tokens) is a fatal error: the final reduction of `Nfa::parse` unwraps an empty
stack, so `parse`, `Regex::new` and `is_match` all panic (`none` here) and no
automaton is returned. -/
theorem claim10_empty_pattern_fatal :
    (∀ (nfa : Nfa) (pattern : List Char),
        toPostfix (insert_explicit_concat_operator pattern) = [] →
        nfa.parse pattern = none) ∧
      Nfa.new.parse [] = none ∧
      Regex.new [] = none ∧
      ∀ input, is_match [] input = none := by
  refine ⟨?_, rfl, rfl, ?_⟩
  · intro nfa pattern h
    simp [Nfa.parse, h, parseLoop, reduceStack]
  · intro input
    rw [is_match, show Regex.new [] = none from rfl]
    rfl

theorem claim10_witness :
    toPostfix (insert_explicit_concat_operator []) = [] ∧
      Nfa.new.parse [] = none :=
  ⟨rfl, claim10_empty_pattern_fatal.1 Nfa.new [] rfl⟩

/-- C1 counterexample: for `p = "(a"`, `q = "b)"`, `s = "a"`, the compiled
union pattern `"(a|b)"` matches `"a"`, while neither `compile("(a")` nor
`compile("b)")` matches `"a"`, so the two sides of the union law differ. -/
theorem claim1_counterexample :
    is_match (['(', 'a'] ++ ['|'] ++ ['b', ')']) ['a'] = some true ∧
      is_match ['(', 'a'] ['a'] = some false ∧
      is_match ['b', ')'] ['a'] = some false ∧
      (some true : Option Bool) ≠ some (false || false) := by
  refine ⟨by decide, by decide, by decide, by decide⟩

/-- C2 counterexample: for `p = "ab"` and `n = 0`, `repeat(p, 0)` is the empty
string, and `compile("ab*")` (star binds only to `b`) rejects it, so the
closure law fails for multi-symbol patterns. -/
theorem claim2_counterexample :
    is_match (['a', 'b'] ++ ['*']) (repeatPat ['a', 'b'] 0) = some false ∧
      is_match (['a', 'b'] ++ ['*']) (repeatPat ['a', 'b'] 0) ≠ some true := by
  refine ⟨by decide, by decide⟩

/-- C3 counterexample: the empty pattern consists vacuously of literal symbols
only, but compiling it panics (`none`), so `matches(compile(""), "")` does not
return `true`. -/
theorem claim3_counterexample :
    (∀ c ∈ ([] : List Char), isLit c) ∧
      is_match [] [] = none ∧
      is_match [] [] ≠ some true := by
  refine ⟨by simp, rfl, by decide⟩

end RegexThompson

namespace Fsm

/-- The symbol loop of `Dfa::accepts` agrees with the partial walk `run`:
it rejects when the walk aborts and otherwise reports the acceptance flag of
the state reached. -/
theorem acceptsGo_eq_run {A : Type} (dfa : Dfa A) :
    ∀ (word : List A) (s : Nat),
      dfa.acceptsGo s word =
        match dfa.run s word with
        | some t => (dfa.stateD t).accepting
        | none => false := by
  intro word
  induction word with
  | nil => intro s; rfl
  | cons a rest ih =>
    intro s
    rw [Dfa.acceptsGo, Dfa.run]
    cases h : dfa.next s a with
    | none => rfl
    | some t => exact ih t

/-- C4: `Dfa::accepts` on an automaton with zero states returns `false` for
every word, including the empty one; on a non-empty automaton it walks from
state 0, returns `false` as soon as a symbol has no outgoing transition, and
otherwise accepts iff the state reached after the whole word is accepting. -/
theorem claim4_dfa_accepts (A : Type) (dfa : Dfa A) :
    (dfa.states.items = [] → ∀ word, dfa.accepts word = false) ∧
      (dfa.states.items ≠ [] → ∀ word : List A,
        (dfa.run 0 word = none → dfa.accepts word = false) ∧
        ∀ s, dfa.run 0 word = some s →
          dfa.accepts word = (dfa.stateD s).accepting) := by
  constructor
  · intro h word
    simp [Dfa.accepts, List.isEmpty_iff, h]
  · intro h word
    have hne : dfa.states.items.isEmpty = false := by
      simp [List.isEmpty_iff, h]
    constructor
    · intro hrun
      rw [Dfa.accepts, hne]
      simp only [Bool.false_eq_true, if_false]
      rw [acceptsGo_eq_run dfa word 0, hrun]
    · intro s hrun
      rw [Dfa.accepts, hne]
      simp only [Bool.false_eq_true, if_false]
      rw [acceptsGo_eq_run dfa word 0, hrun]

theorem claim4_witness :
    evenZeros.states.items ≠ [] ∧
      evenZeros.run 0 [false, true, false] = some 0 ∧
      evenZeros.accepts [false, true, false] = (evenZeros.stateD 0).accepting := by
  have hne : evenZeros.states.items ≠ [] :=
    fun h => absurd (congrArg List.length h) (by decide)
  have hrun : evenZeros.run 0 [false, true, false] = some 0 := by decide
  exact ⟨hne, hrun,
    ((claim4_dfa_accepts Bool evenZeros).2 hne [false, true, false]).2 0 hrun⟩

end Fsm

namespace RegexThompson

theorem stateD_id (nfa : Nfa) (h : nfa.idsDense) (i : Nat)
    (hi : i < nfa.states.length) : (nfa.stateD i).id = i := by
  have := h i hi
  rw [List.get_eq_getElem] at this
  rw [Nfa.stateD, List.getD_eq_getElem?_getD, List.getElem?_eq_getElem hi]
  exact this

theorem idsDense_new : Nfa.new.idsDense := by
  intro i h
  exact absurd h (Nat.not_lt_zero i)

theorem idsDense_new_state (nfa : Nfa) (b : Bool) (h : nfa.idsDense) :
    ((nfa.new_state b).2).idsDense := by
  intro i hi
  rw [List.get_eq_getElem]
  simp only [Nfa.new_state, List.length_append, List.length_singleton] at hi ⊢
  rcases Nat.lt_or_ge i nfa.states.length with hlt | hge
  · rw [List.getElem_append_left hlt]
    have := h i hlt
    rw [List.get_eq_getElem] at this
    exact this
  · have hieq : i = nfa.states.length := by omega
    subst hieq
    rw [List.getElem_append_right (le_refl _)]
    simp [State.new]

theorem idsDense_modifyState (nfa : Nfa) (j : Nat) (f : State → State)
    (hf : ∀ st, (f st).id = st.id) (h : nfa.idsDense) :
    (nfa.modifyState j f).idsDense := by
  intro i hi
  rw [List.get_eq_getElem]
  simp only [Nfa.modifyState, List.length_set] at hi ⊢
  rw [List.getElem_set]
  split
  · next heq =>
    subst heq
    rw [hf]
    exact stateD_id nfa h j hi
  · have := h i hi
    rw [List.get_eq_getElem] at this
    exact this

theorem idsDense_symbol (nfa : Nfa) (c : Char) (h : nfa.idsDense) :
    ((nfa.symbol c).2).idsDense := by
  apply idsDense_modifyState
  · intro st
    rfl
  · exact idsDense_new_state _ _ (idsDense_new_state _ _ h)

theorem idsDense_concat (nfa : Nfa) (f1 f2 : Fragment) (h : nfa.idsDense) :
    ((nfa.concat f1 f2).2).idsDense := by
  apply idsDense_modifyState
  · intro st
    rfl
  · apply idsDense_modifyState
    · intro st
      rfl
    · exact h

theorem idsDense_union (nfa : Nfa) (f1 f2 : Fragment) (h : nfa.idsDense) :
    ((nfa.union f1 f2).2).idsDense := by
  apply idsDense_modifyState
  · intro st
    rfl
  · apply idsDense_modifyState
    · intro st
      rfl
    · apply idsDense_modifyState
      · intro st
        rfl
      · apply idsDense_modifyState
        · intro st
          rfl
        · apply idsDense_modifyState
          · intro st
            rfl
          · apply idsDense_modifyState
            · intro st
              rfl
            · exact idsDense_new_state _ _ (idsDense_new_state _ _ h)

theorem idsDense_closure (nfa : Nfa) (f : Fragment) (h : nfa.idsDense) :
    ((nfa.closure f).2).idsDense := by
  apply idsDense_modifyState
  · intro st
    rfl
  · apply idsDense_modifyState
    · intro st
      rfl
    · apply idsDense_modifyState
      · intro st
        rfl
      · apply idsDense_modifyState
        · intro st
          rfl
        · apply idsDense_modifyState
          · intro st
            rfl
          · exact idsDense_new_state _ _ (idsDense_new_state _ _ h)

theorem idsDense_parseStep (t : Char) (stack : List Fragment) (nfa : Nfa)
    (stack1 : List Fragment) (nfa1 : Nfa)
    (hstep : parseStep t (stack, nfa) = some (stack1, nfa1))
    (h : nfa.idsDense) : nfa1.idsDense := by
  rcases stack with _ | ⟨g1, _ | ⟨g2, gs⟩⟩
  · simp only [parseStep] at hstep
    split at hstep
    · exact absurd hstep (by simp)
    · split at hstep
      · exact absurd hstep (by simp)
      · split at hstep
        · exact absurd hstep (by simp)
        · simp only [Option.some.injEq, Prod.mk.injEq] at hstep
          rw [← hstep.2]
          exact idsDense_symbol nfa t h
  · simp only [parseStep] at hstep
    split at hstep
    · exact absurd hstep (by simp)
    · split at hstep
      · exact absurd hstep (by simp)
      · split at hstep
        · simp only [Option.some.injEq, Prod.mk.injEq] at hstep
          rw [← hstep.2]
          exact idsDense_closure nfa g1 h
        · simp only [Option.some.injEq, Prod.mk.injEq] at hstep
          rw [← hstep.2]
          exact idsDense_symbol nfa t h
  · simp only [parseStep] at hstep
    split at hstep
    · simp only [Option.some.injEq, Prod.mk.injEq] at hstep
      rw [← hstep.2]
      exact idsDense_concat nfa g2 g1 h
    · split at hstep
      · simp only [Option.some.injEq, Prod.mk.injEq] at hstep
        rw [← hstep.2]
        exact idsDense_union nfa g2 g1 h
      · split at hstep
        · simp only [Option.some.injEq, Prod.mk.injEq] at hstep
          rw [← hstep.2]
          exact idsDense_closure nfa g1 h
        · simp only [Option.some.injEq, Prod.mk.injEq] at hstep
          rw [← hstep.2]
          exact idsDense_symbol nfa t h

theorem idsDense_parseLoop (tokens : List Char) :
    ∀ (stack : List Fragment) (nfa : Nfa) (stack1 : List Fragment) (nfa1 : Nfa),
      parseLoop tokens (stack, nfa) = some (stack1, nfa1) →
      nfa.idsDense → nfa1.idsDense := by
  induction tokens with
  | nil =>
    intro stack nfa stack1 nfa1 hrun h
    simp only [parseLoop, Option.some.injEq, Prod.mk.injEq] at hrun
    rw [← hrun.2]
    exact h
  | cons t ts ih =>
    intro stack nfa stack1 nfa1 hrun h
    rw [parseLoop] at hrun
    cases hstep : parseStep t (stack, nfa) with
    | none =>
      rw [hstep] at hrun
      exact absurd hrun (by simp)
    | some st1 =>
      rw [hstep] at hrun
      simp only [Option.some_bind] at hrun
      exact ih st1.1 st1.2 stack1 nfa1 hrun
        (idsDense_parseStep t stack nfa st1.1 st1.2 (by rw [hstep]) h)

theorem idsDense_reduceStack (fs : List Fragment) (nfa : Nfa) (f1 : Fragment)
    (nfa1 : Nfa) (hred : reduceStack fs nfa = some (f1, nfa1))
    (h : nfa.idsDense) : nfa1.idsDense := by
  match fs with
  | [] => exact absurd hred (by simp [reduceStack])
  | f :: rest =>
    simp only [reduceStack, Option.some.injEq] at hred
    have hfold : ∀ (todo : List Fragment) (acc : Fragment × Nfa), acc.2.idsDense →
        (todo.foldl (fun acc f2 => acc.2.concat acc.1 f2) acc).2.idsDense := by
      intro todo
      induction todo with
      | nil => intro acc hacc; exact hacc
      | cons g gs ihg =>
        intro acc hacc
        exact ihg _ (idsDense_concat acc.2 acc.1 g hacc)
    have h2 := hfold rest (f, nfa) h
    rw [hred] at h2
    exact h2

/-- C9: state identifiers are dense and stable: any automaton built by a
sequence of state creations (NFA `new_state` folds, DFA `add_state` folds, or
a full `Nfa::parse`) stores at index `i` a state with identifier `i`; each
creation assigns the next identifier (the current length), appends, and leaves
every existing state untouched, so no identifier is reused or removed. -/
theorem claim9_state_ids :
    (∀ ops : List Bool, (Nfa.buildStates ops).idsDense) ∧
      (∀ (A : Type) (ops : List Bool), (Fsm.Dfa.buildStates A ops).idsDense) ∧
      (∀ (nfa : Nfa) (b : Bool),
        (nfa.new_state b).1 = nfa.states.length ∧
        ((nfa.new_state b).2).states.length = nfa.states.length + 1 ∧
        (((nfa.new_state b).2).stateD nfa.states.length).id = nfa.states.length ∧
        ∀ i, i < nfa.states.length → ((nfa.new_state b).2).stateD i = nfa.stateD i) ∧
      (∀ (A : Type) (dfa : Fsm.Dfa A) (b : Bool),
        (dfa.add_state b).1 = dfa.states.items.length ∧
        ((dfa.add_state b).2).states.items.length = dfa.states.items.length + 1 ∧
        (((dfa.add_state b).2).stateD dfa.states.items.length).id
          = dfa.states.items.length ∧
        ∀ i, i < dfa.states.items.length →
          ((dfa.add_state b).2).stateD i = dfa.stateD i) ∧
      ∀ (pattern : List Char) (f : Fragment) (nfa1 : Nfa),
        Nfa.new.parse pattern = some (f, nfa1) → nfa1.idsDense := by
  refine ⟨?_, ?_, ?_, ?_, ?_⟩
  · intro ops
    have hfold : ∀ (l : List Bool) (nfa : Nfa), nfa.idsDense →
        (l.foldl (fun n b => (n.new_state b).2) nfa).idsDense := by
      intro l
      induction l with
      | nil => intro nfa h; exact h
      | cons b bs ih => intro nfa h; exact ih _ (idsDense_new_state nfa b h)
    exact hfold ops Nfa.new idsDense_new
  · intro A ops
    have hfold : ∀ (l : List Bool) (dfa : Fsm.Dfa A), dfa.idsDense →
        (l.foldl (fun d b => (d.add_state b).2) dfa).idsDense := by
      intro l
      induction l with
      | nil => intro dfa h; exact h
      | cons b bs ih =>
        intro dfa h
        apply ih
        intro i hi
        rw [List.get_eq_getElem]
        simp only [Fsm.Dfa.add_state, Fsm.Arena.alloc_with_id, Fsm.Arena.next_id,
          List.length_append, List.length_singleton] at hi ⊢
        rcases Nat.lt_or_ge i dfa.states.items.length with hlt | hge
        · rw [List.getElem_append_left hlt]
          have := h i hlt
          rw [List.get_eq_getElem] at this
          exact this
        · have hieq : i = dfa.states.items.length := by omega
          subst hieq
          rw [List.getElem_append_right (le_refl _)]
          simp [Fsm.DState.new]
    refine hfold ops (Fsm.Dfa.new A) ?_
    intro i hi
    exact absurd hi (Nat.not_lt_zero i)
  · intro nfa b
    refine ⟨rfl, by simp [Nfa.new_state], ?_, ?_⟩
    · rw [stateD_new_state_self]
      rfl
    · intro i hi
      exact stateD_new_state_ne nfa b i (by omega)
  · intro A dfa b
    refine ⟨rfl, by simp [Fsm.Dfa.add_state, Fsm.Arena.alloc_with_id], ?_, ?_⟩
    · simp [Fsm.Dfa.add_state, Fsm.Arena.alloc_with_id, Fsm.Arena.next_id,
        Fsm.Dfa.stateD, Fsm.DState.new]
    · intro i hi
      simp only [Fsm.Dfa.add_state, Fsm.Arena.alloc_with_id, Fsm.Arena.next_id,
        Fsm.Dfa.stateD, List.getD_eq_getElem?_getD]
      rw [List.getElem?_append_left hi]
  · intro pattern f nfa1 hparse
    rw [Nfa.parse] at hparse
    cases hloop : parseLoop (toPostfix (insert_explicit_concat_operator pattern))
        ([], Nfa.new) with
    | none =>
      rw [hloop] at hparse
      exact absurd hparse (by simp)
    | some st =>
      rw [hloop] at hparse
      simp only [Option.some_bind] at hparse
      exact idsDense_reduceStack st.1.reverse st.2 f nfa1 hparse
        (idsDense_parseLoop _ [] Nfa.new st.1 st.2 (by rw [← hloop]) idsDense_new)

theorem claim9_witness :
    0 < sampleNfa.states.length ∧
      ((sampleNfa.new_state true).2).stateD 0 = sampleNfa.stateD 0 :=
  ⟨by decide, (claim9_state_ids.2.2.1 sampleNfa true).2.2.2 0 (by decide)⟩

end RegexThompson

namespace RegexThompson

theorem symbol_spec (nfa : Nfa) (c : Char) :
    (nfa.symbol c).1 = ⟨nfa.states.length, nfa.states.length + 1⟩ ∧
      ((nfa.symbol c).2).states.length = nfa.states.length + 2 ∧
      (∀ i, i ≠ nfa.states.length → i ≠ nfa.states.length + 1 →
        ((nfa.symbol c).2).stateD i = nfa.stateD i) ∧
      ((nfa.symbol c).2).stateD nfa.states.length
        = (State.new nfa.states.length false).insertTransition c
            (nfa.states.length + 1) ∧
      ((nfa.symbol c).2).stateD (nfa.states.length + 1)
        = State.new (nfa.states.length + 1) true := by
  have hA : ((nfa.new_state false).2).states.length = nfa.states.length + 1 :=
    length_new_state nfa false
  refine ⟨?_, ?_, ?_, ?_, ?_⟩
  · simp only [Nfa.symbol, fst_new_state, hA]
  · simp only [Nfa.symbol, length_modifyState, length_new_state, hA]
  · intro i h1 h2
    simp only [Nfa.symbol, fst_new_state]
    rw [stateD_modifyState_ne _ _ _ _ h1,
      stateD_new_state_ne _ _ _ (by rw [hA]; exact h2),
      stateD_new_state_ne _ _ _ h1]
  · simp only [Nfa.symbol, fst_new_state, hA]
    rw [stateD_modifyState_self _ _ _
        (by simp only [length_modifyState, length_new_state]; omega),
      stateD_new_state_ne _ _ _ (by rw [hA]; omega),
      stateD_new_state_self]
  · simp only [Nfa.symbol, fst_new_state, hA]
    rw [stateD_modifyState_ne _ _ _ _ (by omega), ← hA, stateD_new_state_self]

theorem concat_spec (nfa : Nfa) (f1 f2 : Fragment)
    (h : f1.stop < nfa.states.length) :
    (nfa.concat f1 f2).1 = ⟨f1.start, f2.stop⟩ ∧
      ((nfa.concat f1 f2).2).states.length = nfa.states.length ∧
      (∀ i, i ≠ f1.stop → ((nfa.concat f1 f2).2).stateD i = nfa.stateD i) ∧
      ((nfa.concat f1 f2).2).stateD f1.stop
        = ((nfa.stateD f1.stop).insertEps f2.start).setAccepting false := by
  refine ⟨rfl, ?_, ?_, ?_⟩
  · simp only [Nfa.concat, length_modifyState]
  · intro i hi
    simp only [Nfa.concat]
    rw [stateD_modifyState_ne _ _ _ _ hi, stateD_modifyState_ne _ _ _ _ hi]
  · simp only [Nfa.concat]
    rw [stateD_modifyState_self _ _ _ (by rw [length_modifyState]; exact h),
      stateD_modifyState_self _ _ _ h]

theorem union_spec (nfa : Nfa) (f1 f2 : Fragment)
    (h1 : f1.stop < nfa.states.length) (h2 : f2.stop < nfa.states.length) :
    (nfa.union f1 f2).1 = ⟨nfa.states.length, nfa.states.length + 1⟩ ∧
      ((nfa.union f1 f2).2).states.length = nfa.states.length + 2 ∧
      (∀ i, i ≠ f1.stop → i ≠ f2.stop → i ≠ nfa.states.length →
        i ≠ nfa.states.length + 1 →
        ((nfa.union f1 f2).2).stateD i = nfa.stateD i) ∧
      ((nfa.union f1 f2).2).stateD nfa.states.length
        = ((State.new nfa.states.length false).insertEps f1.start).insertEps
            f2.start ∧
      ((nfa.union f1 f2).2).stateD (nfa.states.length + 1)
        = State.new (nfa.states.length + 1) true ∧
      (f1.stop ≠ f2.stop →
        ((nfa.union f1 f2).2).stateD f1.stop
          = ((nfa.stateD f1.stop).insertEps (nfa.states.length + 1)).setAccepting
              false ∧
        ((nfa.union f1 f2).2).stateD f2.stop
          = ((nfa.stateD f2.stop).insertEps (nfa.states.length + 1)).setAccepting
              false) := by
  have hA : ((nfa.new_state false).2).states.length = nfa.states.length + 1 :=
    length_new_state nfa false
  have hL1 : f1.stop ≠ nfa.states.length := by omega
  have hL1b : f1.stop ≠ nfa.states.length + 1 := by omega
  have hL2 : f2.stop ≠ nfa.states.length := by omega
  have hL2b : f2.stop ≠ nfa.states.length + 1 := by omega
  have hlen2 : (((nfa.new_state false).2.new_state true).2).states.length
      = nfa.states.length + 2 := by rw [length_new_state, hA]
  refine ⟨?_, ?_, ?_, ?_, ?_, ?_⟩
  · simp only [Nfa.union, fst_new_state, hA]
  · simp only [Nfa.union, length_modifyState, length_new_state, hA]
  · intro i hi1 hi2 hi3 hi4
    simp only [Nfa.union, fst_new_state, hA]
    rw [stateD_modifyState_ne _ _ _ _ hi2, stateD_modifyState_ne _ _ _ _ hi1,
      stateD_modifyState_ne _ _ _ _ hi2, stateD_modifyState_ne _ _ _ _ hi1,
      stateD_modifyState_ne _ _ _ _ hi3, stateD_modifyState_ne _ _ _ _ hi3,
      stateD_new_state_ne _ _ _ (by rw [hA]; exact hi4),
      stateD_new_state_ne _ _ _ hi3]
  · simp only [Nfa.union, fst_new_state, hA]
    rw [stateD_modifyState_ne _ _ _ _ (Ne.symm hL2),
      stateD_modifyState_ne _ _ _ _ (Ne.symm hL1),
      stateD_modifyState_ne _ _ _ _ (Ne.symm hL2),
      stateD_modifyState_ne _ _ _ _ (Ne.symm hL1),
      stateD_modifyState_self _ _ _ (by simp only [length_modifyState, length_new_state]; omega),
      stateD_modifyState_self _ _ _ (by simp only [length_modifyState, length_new_state]; omega),
      stateD_new_state_ne _ _ _ (by rw [hA]; omega),
      stateD_new_state_self]
  · simp only [Nfa.union, fst_new_state, hA]
    rw [stateD_modifyState_ne _ _ _ _ (Ne.symm hL2b),
      stateD_modifyState_ne _ _ _ _ (Ne.symm hL1b),
      stateD_modifyState_ne _ _ _ _ (Ne.symm hL2b),
      stateD_modifyState_ne _ _ _ _ (Ne.symm hL1b),
      stateD_modifyState_ne _ _ _ _ (by omega),
      stateD_modifyState_ne _ _ _ _ (by omega),
      ← hA, stateD_new_state_self]
  · intro hne
    constructor
    · simp only [Nfa.union, fst_new_state, hA]
      rw [stateD_modifyState_ne _ _ _ _ hne,
        stateD_modifyState_self _ _ _
          (by simp only [length_modifyState, length_new_state]; omega),
        stateD_modifyState_ne _ _ _ _ hne,
        stateD_modifyState_self _ _ _
          (by simp only [length_modifyState, length_new_state]; omega),
        stateD_modifyState_ne _ _ _ _ hL1,
        stateD_modifyState_ne _ _ _ _ hL1,
        stateD_new_state_ne _ _ _ (by rw [hA]; exact hL1b),
        stateD_new_state_ne _ _ _ hL1]
    · simp only [Nfa.union, fst_new_state, hA]
      rw [stateD_modifyState_self _ _ _
          (by simp only [length_modifyState, length_new_state]; omega),
        stateD_modifyState_ne _ _ _ _ (Ne.symm hne),
        stateD_modifyState_self _ _ _
          (by simp only [length_modifyState, length_new_state]; omega),
        stateD_modifyState_ne _ _ _ _ (Ne.symm hne),
        stateD_modifyState_ne _ _ _ _ hL2,
        stateD_modifyState_ne _ _ _ _ hL2,
        stateD_new_state_ne _ _ _ (by rw [hA]; exact hL2b),
        stateD_new_state_ne _ _ _ hL2]

theorem closure_spec (nfa : Nfa) (f : Fragment)
    (h : f.stop < nfa.states.length) :
    (nfa.closure f).1 = ⟨nfa.states.length, nfa.states.length + 1⟩ ∧
      ((nfa.closure f).2).states.length = nfa.states.length + 2 ∧
      (∀ i, i ≠ f.stop → i ≠ nfa.states.length → i ≠ nfa.states.length + 1 →
        ((nfa.closure f).2).stateD i = nfa.stateD i) ∧
      ((nfa.closure f).2).stateD nfa.states.length
        = ((State.new nfa.states.length false).insertEps f.start).insertEps
            (nfa.states.length + 1) ∧
      ((nfa.closure f).2).stateD (nfa.states.length + 1)
        = State.new (nfa.states.length + 1) true ∧
      ((nfa.closure f).2).stateD f.stop
        = (((nfa.stateD f.stop).insertEps f.start).insertEps
            (nfa.states.length + 1)).setAccepting false := by
  have hA : ((nfa.new_state false).2).states.length = nfa.states.length + 1 :=
    length_new_state nfa false
  have hL1 : f.stop ≠ nfa.states.length := by omega
  have hL1b : f.stop ≠ nfa.states.length + 1 := by omega
  have hlen2 : (((nfa.new_state false).2.new_state true).2).states.length
      = nfa.states.length + 2 := by rw [length_new_state, hA]
  refine ⟨?_, ?_, ?_, ?_, ?_, ?_⟩
  · simp only [Nfa.closure, fst_new_state, hA]
  · simp only [Nfa.closure, length_modifyState, length_new_state, hA]
  · intro i hi1 hi2 hi3
    simp only [Nfa.closure, fst_new_state, hA]
    rw [stateD_modifyState_ne _ _ _ _ hi1, stateD_modifyState_ne _ _ _ _ hi1,
      stateD_modifyState_ne _ _ _ _ hi1, stateD_modifyState_ne _ _ _ _ hi2,
      stateD_modifyState_ne _ _ _ _ hi2,
      stateD_new_state_ne _ _ _ (by rw [hA]; exact hi3),
      stateD_new_state_ne _ _ _ hi2]
  · simp only [Nfa.closure, fst_new_state, hA]
    rw [stateD_modifyState_ne _ _ _ _ (Ne.symm hL1),
      stateD_modifyState_ne _ _ _ _ (Ne.symm hL1),
      stateD_modifyState_ne _ _ _ _ (Ne.symm hL1),
      stateD_modifyState_self _ _ _ (by simp only [length_modifyState, length_new_state]; omega),
      stateD_modifyState_self _ _ _ (by simp only [length_modifyState, length_new_state]; omega),
      stateD_new_state_ne _ _ _ (by rw [hA]; omega),
      stateD_new_state_self]
  · simp only [Nfa.closure, fst_new_state, hA]
    rw [stateD_modifyState_ne _ _ _ _ (Ne.symm hL1b),
      stateD_modifyState_ne _ _ _ _ (Ne.symm hL1b),
      stateD_modifyState_ne _ _ _ _ (Ne.symm hL1b),
      stateD_modifyState_ne _ _ _ _ (by omega),
      stateD_modifyState_ne _ _ _ _ (by omega),
      ← hA, stateD_new_state_self]
  · simp only [Nfa.closure, fst_new_state, hA]
    rw [stateD_modifyState_self _ _ _
        (by simp only [length_modifyState, length_new_state]; omega),
      stateD_modifyState_self _ _ _
        (by simp only [length_modifyState, length_new_state]; omega),
      stateD_modifyState_self _ _ _ (by simp only [length_modifyState, length_new_state]; omega),
      stateD_modifyState_ne _ _ _ _ hL1,
      stateD_modifyState_ne _ _ _ _ hL1,
      stateD_new_state_ne _ _ _ (by rw [hA]; exact hL1b),
      stateD_new_state_ne _ _ _ hL1]

end RegexThompson

namespace RegexThompson

theorem stackInv_new : StackInv Nfa.new [] := by
  refine ⟨by simp, by simp, ?_⟩
  intro i hi
  exact absurd hi (Nat.not_lt_zero i)

theorem stackInv_swap (nfa : Nfa) (a b : Fragment) (rest : List Fragment)
    (h : StackInv nfa (a :: b :: rest)) : StackInv nfa (b :: a :: rest) := by
  obtain ⟨hr, hnd, hacc⟩ := h
  refine ⟨?_, ?_, ?_⟩
  · intro f hf
    apply hr
    simp only [List.mem_cons] at hf ⊢
    tauto
  · have hperm : (List.map Fragment.stop (a :: b :: rest)).Perm
        (List.map Fragment.stop (b :: a :: rest)) := by
      simp only [List.map_cons]
      exact List.Perm.swap _ _ _
    exact hperm.nodup hnd
  · intro i hi
    rw [hacc i hi]
    simp only [List.map_cons, List.mem_cons]
    tauto

theorem stackInv_reverse (nfa : Nfa) (stack : List Fragment)
    (h : StackInv nfa stack) : StackInv nfa stack.reverse := by
  obtain ⟨hr, hnd, hacc⟩ := h
  refine ⟨?_, ?_, ?_⟩
  · intro f hf
    exact hr f (List.mem_reverse.mp hf)
  · rw [List.map_reverse]
    exact List.nodup_reverse.mpr hnd
  · intro i hi
    rw [hacc i hi, List.map_reverse, List.mem_reverse]


end RegexThompson

namespace RegexThompson

theorem stops_lt (nfa : Nfa) (stack : List Fragment)
    (hr : ∀ f ∈ stack, f.start < nfa.states.length ∧ f.stop < nfa.states.length)
    (j : Nat) (hj : j ∈ List.map Fragment.stop stack) : j < nfa.states.length := by
  rcases List.mem_map.mp hj with ⟨f, hf, rfl⟩
  exact (hr f hf).2

theorem stackInv_symbol (nfa : Nfa) (c : Char) (stack : List Fragment)
    (h : StackInv nfa stack) :
    StackInv ((nfa.symbol c).2) ((nfa.symbol c).1 :: stack) := by
  obtain ⟨hr, hnd, hacc⟩ := h
  obtain ⟨hfrag, hlen, hoth, hself, hnext⟩ := symbol_spec nfa c
  rw [hfrag]
  refine ⟨?_, ?_, ?_⟩
  · intro f hf
    rw [hlen]
    rcases List.mem_cons.mp hf with rfl | hf2
    · refine ⟨?_, ?_⟩
      · show nfa.states.length < nfa.states.length + 2
        omega
      · show nfa.states.length + 1 < nfa.states.length + 2
        omega
    · have := hr f hf2
      omega
  · simp only [List.map_cons]
    rw [List.nodup_cons]
    refine ⟨?_, hnd⟩
    intro hmem
    have hlt := stops_lt nfa stack hr _ hmem
    revert hlt
    show ¬(nfa.states.length + 1 < nfa.states.length)
    omega
  · intro i hi
    rw [hlen] at hi
    simp only [List.map_cons, List.mem_cons]
    show ((nfa.symbol c).2.stateD i).accepting = true ↔
      i = nfa.states.length + 1 ∨ i ∈ List.map Fragment.stop stack
    by_cases h1 : i = nfa.states.length
    · subst h1
      rw [hself]
      simp only [State.insertTransition, State.new]
      constructor
      · intro hfalse
        exact absurd hfalse (by simp)
      · rintro (heq | hmem)
        · omega
        · have := stops_lt nfa stack hr _ hmem
          omega
    · by_cases h2 : i = nfa.states.length + 1
      · subst h2
        rw [hnext]
        simp [State.new]
      · rw [hoth i h1 h2, hacc i (by omega)]
        constructor
        · intro hmem
          exact Or.inr hmem
        · rintro (heq | hmem)
          · exact absurd heq h2
          · exact hmem

theorem stackInv_concat (nfa : Nfa) (f1 f2 : Fragment) (rest : List Fragment)
    (h : StackInv nfa (f2 :: f1 :: rest)) :
    StackInv ((nfa.concat f1 f2).2) ((nfa.concat f1 f2).1 :: rest) := by
  obtain ⟨hr, hnd, hacc⟩ := h
  have h1 : f1.stop < nfa.states.length := (hr f1 (by simp)).2
  have h2 : f2.stop < nfa.states.length := (hr f2 (by simp)).2
  have h1s : f1.start < nfa.states.length := (hr f1 (by simp)).1
  obtain ⟨hfrag, hlen, hoth, hself⟩ := concat_spec nfa f1 f2 h1
  simp only [List.map_cons, List.nodup_cons, List.mem_cons, not_or] at hnd
  rw [hfrag]
  refine ⟨?_, ?_, ?_⟩
  · intro f hf
    rw [hlen]
    rcases List.mem_cons.mp hf with rfl | hf2
    · exact ⟨h1s, h2⟩
    · exact hr f (by simp [hf2])
  · simp only [List.map_cons, List.nodup_cons]
    exact ⟨hnd.1.2, hnd.2.2⟩
  · intro i hi
    rw [hlen] at hi
    simp only [List.map_cons, List.mem_cons]
    show ((nfa.concat f1 f2).2.stateD i).accepting = true ↔
      i = f2.stop ∨ i ∈ List.map Fragment.stop rest
    by_cases hif : i = f1.stop
    · subst hif
      rw [hself]
      simp only [State.setAccepting]
      constructor
      · intro hfalse
        exact absurd hfalse (by simp)
      · rintro (heq | hmem)
        · exact absurd heq.symm hnd.1.1
        · exact absurd hmem hnd.2.1
    · rw [hoth i hif, hacc i hi]
      simp only [List.map_cons, List.mem_cons]
      constructor
      · rintro (ha | hb | hc)
        · exact Or.inl ha
        · exact absurd hb hif
        · exact Or.inr hc
      · rintro (ha | hb)
        · exact Or.inl ha
        · exact Or.inr (Or.inr hb)

theorem stackInv_union (nfa : Nfa) (f1 f2 : Fragment) (rest : List Fragment)
    (h : StackInv nfa (f2 :: f1 :: rest)) :
    StackInv ((nfa.union f1 f2).2) ((nfa.union f1 f2).1 :: rest) := by
  obtain ⟨hr, hnd, hacc⟩ := h
  have h1 : f1.stop < nfa.states.length := (hr f1 (by simp)).2
  have h2 : f2.stop < nfa.states.length := (hr f2 (by simp)).2
  simp only [List.map_cons, List.nodup_cons, List.mem_cons, not_or] at hnd
  obtain ⟨hfrag, hlen, hoth, hstart, hstop, hends⟩ := union_spec nfa f1 f2 h1 h2
  obtain ⟨hend1, hend2⟩ := hends (fun hh => hnd.1.1 hh.symm)
  rw [hfrag]
  refine ⟨?_, ?_, ?_⟩
  · intro f hf
    rw [hlen]
    rcases List.mem_cons.mp hf with rfl | hf2
    · refine ⟨?_, ?_⟩
      · show nfa.states.length < nfa.states.length + 2
        omega
      · show nfa.states.length + 1 < nfa.states.length + 2
        omega
    · have := hr f (by simp [hf2])
      omega
  · simp only [List.map_cons, List.nodup_cons]
    refine ⟨?_, hnd.2.2⟩
    intro hmem
    have hlt := stops_lt nfa rest (fun f hf => hr f (by simp [hf])) _ hmem
    revert hlt
    show ¬(nfa.states.length + 1 < nfa.states.length)
    omega
  · intro i hi
    rw [hlen] at hi
    simp only [List.map_cons, List.mem_cons]
    show ((nfa.union f1 f2).2.stateD i).accepting = true ↔
      i = nfa.states.length + 1 ∨ i ∈ List.map Fragment.stop rest
    have hrestlt : ∀ j ∈ List.map Fragment.stop rest, j < nfa.states.length :=
      stops_lt nfa rest (fun f hf => hr f (by simp [hf]))
    by_cases hia : i = f1.stop
    · subst hia
      rw [hend1]
      simp only [State.setAccepting]
      constructor
      · intro hfalse
        exact absurd hfalse (by simp)
      · rintro (heq | hmem)
        · omega
        · exact absurd hmem hnd.2.1
    · by_cases hib : i = f2.stop
      · subst hib
        rw [hend2]
        simp only [State.setAccepting]
        constructor
        · intro hfalse
          exact absurd hfalse (by simp)
        · rintro (heq | hmem)
          · omega
          · exact absurd hmem hnd.1.2
      · by_cases hic : i = nfa.states.length
        · subst hic
          rw [hstart]
          simp only [State.insertEps, State.new]
          constructor
          · intro hfalse
            exact absurd hfalse (by simp)
          · rintro (heq | hmem)
            · omega
            · have := hrestlt _ hmem
              omega
        · by_cases hid : i = nfa.states.length + 1
          · subst hid
            rw [hstop]
            simp [State.new]
          · rw [hoth i hia hib hic hid, hacc i (by omega)]
            simp only [List.map_cons, List.mem_cons]
            constructor
            · rintro (ha | hb | hc)
              · exact absurd ha hib
              · exact absurd hb hia
              · exact Or.inr hc
            · rintro (ha | hb)
              · exact absurd ha hid
              · exact Or.inr (Or.inr hb)

theorem stackInv_closure (nfa : Nfa) (f : Fragment) (rest : List Fragment)
    (h : StackInv nfa (f :: rest)) :
    StackInv ((nfa.closure f).2) ((nfa.closure f).1 :: rest) := by
  obtain ⟨hr, hnd, hacc⟩ := h
  have h1 : f.stop < nfa.states.length := (hr f (by simp)).2
  simp only [List.map_cons, List.nodup_cons] at hnd
  obtain ⟨hfrag, hlen, hoth, hstart, hstop, hend⟩ := closure_spec nfa f h1
  rw [hfrag]
  have hrestlt : ∀ j ∈ List.map Fragment.stop rest, j < nfa.states.length :=
    stops_lt nfa rest (fun g hg => hr g (by simp [hg]))
  refine ⟨?_, ?_, ?_⟩
  · intro g hg
    rw [hlen]
    rcases List.mem_cons.mp hg with rfl | hg2
    · refine ⟨?_, ?_⟩
      · show nfa.states.length < nfa.states.length + 2
        omega
      · show nfa.states.length + 1 < nfa.states.length + 2
        omega
    · have := hr g (by simp [hg2])
      omega
  · simp only [List.map_cons, List.nodup_cons]
    refine ⟨?_, hnd.2⟩
    intro hmem
    have hlt := hrestlt _ hmem
    revert hlt
    show ¬(nfa.states.length + 1 < nfa.states.length)
    omega
  · intro i hi
    rw [hlen] at hi
    simp only [List.map_cons, List.mem_cons]
    show ((nfa.closure f).2.stateD i).accepting = true ↔
      i = nfa.states.length + 1 ∨ i ∈ List.map Fragment.stop rest
    by_cases hia : i = f.stop
    · subst hia
      rw [hend]
      simp only [State.setAccepting]
      constructor
      · intro hfalse
        exact absurd hfalse (by simp)
      · rintro (heq | hmem)
        · omega
        · exact absurd hmem hnd.1
    · by_cases hic : i = nfa.states.length
      · subst hic
        rw [hstart]
        simp only [State.insertEps, State.new]
        constructor
        · intro hfalse
          exact absurd hfalse (by simp)
        · rintro (heq | hmem)
          · omega
          · have := hrestlt _ hmem
            omega
      · by_cases hid : i = nfa.states.length + 1
        · subst hid
          rw [hstop]
          simp [State.new]
        · rw [hoth i hia hic hid, hacc i (by omega)]
          simp only [List.map_cons, List.mem_cons]
          constructor
          · rintro (ha | hb)
            · exact absurd ha hia
            · exact Or.inr hb
          · rintro (ha | hb)
            · exact absurd ha hid
            · exact Or.inr hb

end RegexThompson

namespace RegexThompson

theorem stackInv_parseStep (t : Char) (stack : List Fragment) (nfa : Nfa)
    (stack1 : List Fragment) (nfa1 : Nfa)
    (hstep : parseStep t (stack, nfa) = some (stack1, nfa1))
    (h : StackInv nfa stack) : StackInv nfa1 stack1 := by
  rcases stack with _ | ⟨g1, _ | ⟨g2, gs⟩⟩
  · simp only [parseStep] at hstep
    split at hstep
    · exact absurd hstep (by simp)
    · split at hstep
      · exact absurd hstep (by simp)
      · split at hstep
        · exact absurd hstep (by simp)
        · simp only [Option.some.injEq, Prod.mk.injEq] at hstep
          rw [← hstep.1, ← hstep.2]
          exact stackInv_symbol nfa t [] h
  · simp only [parseStep] at hstep
    split at hstep
    · exact absurd hstep (by simp)
    · split at hstep
      · exact absurd hstep (by simp)
      · split at hstep
        · simp only [Option.some.injEq, Prod.mk.injEq] at hstep
          rw [← hstep.1, ← hstep.2]
          exact stackInv_closure nfa g1 [] h
        · simp only [Option.some.injEq, Prod.mk.injEq] at hstep
          rw [← hstep.1, ← hstep.2]
          exact stackInv_symbol nfa t [g1] h
  · simp only [parseStep] at hstep
    split at hstep
    · simp only [Option.some.injEq, Prod.mk.injEq] at hstep
      rw [← hstep.1, ← hstep.2]
      exact stackInv_concat nfa g2 g1 gs h
    · split at hstep
      · simp only [Option.some.injEq, Prod.mk.injEq] at hstep
        rw [← hstep.1, ← hstep.2]
        exact stackInv_union nfa g2 g1 gs h
      · split at hstep
        · simp only [Option.some.injEq, Prod.mk.injEq] at hstep
          rw [← hstep.1, ← hstep.2]
          exact stackInv_closure nfa g1 (g2 :: gs) h
        · simp only [Option.some.injEq, Prod.mk.injEq] at hstep
          rw [← hstep.1, ← hstep.2]
          exact stackInv_symbol nfa t (g1 :: g2 :: gs) h

theorem stackInv_parseLoop (tokens : List Char) :
    ∀ (stack : List Fragment) (nfa : Nfa) (stack1 : List Fragment) (nfa1 : Nfa),
      parseLoop tokens (stack, nfa) = some (stack1, nfa1) →
      StackInv nfa stack → StackInv nfa1 stack1 := by
  induction tokens with
  | nil =>
    intro stack nfa stack1 nfa1 hrun h
    simp only [parseLoop, Option.some.injEq, Prod.mk.injEq] at hrun
    rw [← hrun.1, ← hrun.2]
    exact h
  | cons t ts ih =>
    intro stack nfa stack1 nfa1 hrun h
    rw [parseLoop] at hrun
    cases hstep : parseStep t (stack, nfa) with
    | none =>
      rw [hstep] at hrun
      exact absurd hrun (by simp)
    | some st1 =>
      rw [hstep] at hrun
      simp only [Option.some_bind] at hrun
      exact ih st1.1 st1.2 stack1 nfa1 hrun
        (stackInv_parseStep t stack nfa st1.1 st1.2 (by rw [hstep]) h)

theorem stackInv_reduceFold (todo : List Fragment) :
    ∀ (acc : Fragment × Nfa), StackInv acc.2 (acc.1 :: todo) →
      StackInv (todo.foldl (fun acc f2 => acc.2.concat acc.1 f2) acc).2
        [(todo.foldl (fun acc f2 => acc.2.concat acc.1 f2) acc).1] := by
  induction todo with
  | nil => intro acc h; exact h
  | cons g gs ih =>
    intro acc h
    rw [List.foldl_cons]
    have hswap := stackInv_swap acc.2 acc.1 g gs h
    have hstep := stackInv_concat acc.2 acc.1 g gs hswap
    exact ih (acc.2.concat acc.1 g) hstep

theorem stackInv_reduceStack (fs : List Fragment) (nfa : Nfa) (f1 : Fragment)
    (nfa1 : Nfa) (hred : reduceStack fs nfa = some (f1, nfa1))
    (h : StackInv nfa fs) : StackInv nfa1 [f1] := by
  match fs with
  | [] => exact absurd hred (by simp [reduceStack])
  | f :: rest =>
    simp only [reduceStack, Option.some.injEq] at hred
    have h2 := stackInv_reduceFold rest (f, nfa) h
    rw [hred] at h2
    exact h2

/-- C7: fragment invariant.  Every builder returns a fragment whose exit state
is accepting (for `concat`, provided the second operand's exit was accepting
and distinct from the consumed exit); every composing builder clears the
accepting flag of each consumed operand's exit state; and after a successful
`Nfa::parse` from a fresh automaton, the returned fragment's exit state is the
unique accepting state of the automaton. -/
theorem union_acc_consumed (nfa : Nfa) (f1 f2 : Fragment)
    (h2 : f2.stop < nfa.states.length) :
    (((nfa.union f1 f2).2).stateD f2.stop).accepting = false := by
  simp only [Nfa.union, fst_new_state]
  rw [stateD_modifyState_self _ _ _
    (by simp only [length_modifyState, length_new_state]; omega)]
  rfl

theorem claim7_fragment_invariant :
    (∀ (nfa : Nfa) (c : Char),
        (((nfa.symbol c).2).stateD (nfa.symbol c).1.stop).accepting = true) ∧
      (∀ (nfa : Nfa) (f1 f2 : Fragment), f1.stop < nfa.states.length →
        f2.stop < nfa.states.length → f1.stop ≠ f2.stop →
        (((nfa.concat f1 f2).2).stateD f1.stop).accepting = false ∧
        ((nfa.stateD f2.stop).accepting = true →
          (((nfa.concat f1 f2).2).stateD (nfa.concat f1 f2).1.stop).accepting
            = true)) ∧
      (∀ (nfa : Nfa) (f1 f2 : Fragment), f1.stop < nfa.states.length →
        f2.stop < nfa.states.length →
        (((nfa.union f1 f2).2).stateD (nfa.union f1 f2).1.stop).accepting
          = true ∧
        (((nfa.union f1 f2).2).stateD f1.stop).accepting = false ∧
        (((nfa.union f1 f2).2).stateD f2.stop).accepting = false) ∧
      (∀ (nfa : Nfa) (f : Fragment), f.stop < nfa.states.length →
        (((nfa.closure f).2).stateD (nfa.closure f).1.stop).accepting = true ∧
        (((nfa.closure f).2).stateD f.stop).accepting = false) ∧
      ∀ (pattern : List Char) (f : Fragment) (nfa1 : Nfa),
        Nfa.new.parse pattern = some (f, nfa1) →
        (nfa1.stateD f.stop).accepting = true ∧
        ∀ i, i < nfa1.states.length → (nfa1.stateD i).accepting = true →
          i = f.stop := by
  refine ⟨?_, ?_, ?_, ?_, ?_⟩
  · intro nfa c
    obtain ⟨hfrag, _, _, _, hnext⟩ := symbol_spec nfa c
    rw [hfrag]
    rw [show (Fragment.mk nfa.states.length (nfa.states.length + 1)).stop
        = nfa.states.length + 1 from rfl, hnext]
    rfl
  · intro nfa f1 f2 h1 h2 hne
    obtain ⟨hfrag, _, hoth, hself⟩ := concat_spec nfa f1 f2 h1
    constructor
    · rw [hself]
      rfl
    · intro hf2
      rw [hfrag]
      rw [show (Fragment.mk f1.start f2.stop).stop = f2.stop from rfl,
        hoth f2.stop (Ne.symm hne)]
      exact hf2
  · intro nfa f1 f2 h1 h2
    obtain ⟨hfrag, _, _, _, hstop, hends⟩ := union_spec nfa f1 f2 h1 h2
    refine ⟨?_, ?_, ?_⟩
    · rw [hfrag]
      rw [show (Fragment.mk nfa.states.length (nfa.states.length + 1)).stop
          = nfa.states.length + 1 from rfl, hstop]
      rfl
    · by_cases hne : f1.stop = f2.stop
      · rw [hne]
        exact union_acc_consumed nfa f1 f2 h2
      · rw [(hends hne).1]
        rfl
    · exact union_acc_consumed nfa f1 f2 h2
  · intro nfa f h
    obtain ⟨hfrag, _, _, _, hstop, hend⟩ := closure_spec nfa f h
    constructor
    · rw [hfrag]
      rw [show (Fragment.mk nfa.states.length (nfa.states.length + 1)).stop
          = nfa.states.length + 1 from rfl, hstop]
      rfl
    · rw [hend]
      rfl
  · intro pattern f nfa1 hparse
    rw [Nfa.parse] at hparse
    cases hloop : parseLoop (toPostfix (insert_explicit_concat_operator pattern))
        ([], Nfa.new) with
    | none =>
      rw [hloop] at hparse
      exact absurd hparse (by simp)
    | some st =>
      rw [hloop] at hparse
      simp only [Option.some_bind] at hparse
      have hst : StackInv st.2 st.1 :=
        stackInv_parseLoop _ [] Nfa.new st.1 st.2 (by rw [← hloop]) stackInv_new
      have hfin : StackInv nfa1 [f] :=
        stackInv_reduceStack st.1.reverse st.2 f nfa1 hparse
          (stackInv_reverse st.2 st.1 hst)
      obtain ⟨hr, _, hacc⟩ := hfin
      constructor
      · rw [hacc f.stop (hr f (by simp)).2]
        simp
      · intro i hi hacci
        have := (hacc i hi).mp hacci
        simpa using this

theorem claim7_witness :
    0 < sampleNfa.states.length ∧ 1 < sampleNfa.states.length ∧ (0 : Nat) ≠ 1 ∧
      ((sampleNfa.concat ⟨0, 0⟩ ⟨1, 1⟩).2.stateD 0).accepting = false :=
  ⟨by decide, by decide, by decide,
    ((claim7_fragment_invariant.2.1 sampleNfa ⟨0, 0⟩ ⟨1, 1⟩ (by decide) (by decide)
      (by decide)).1)⟩

end RegexThompson

namespace RegexThompson

theorem repeatPat_singleton (c : Char) (n : Nat) :
    repeatPat [c] n = List.replicate n c := by
  induction n with
  | zero => rfl
  | succ k ih =>
    rw [repeatPat, List.replicate_succ, List.flatten_cons, List.replicate_succ,
      ← ih, repeatPat]
    rfl

theorem star_compile (c : Char) (hc : isLit c) :
    Regex.new [c, '*'] = some ⟨starNfa c, 2⟩ := by
  obtain ⟨h0, h1, h2, h3, h4, h5, h6⟩ := hc
  have hieco : insert_explicit_concat_operator [c, '*'] = [c, '*'] := by
    simp [insert_explicit_concat_operator, iecoStep]
  have hpost : toPostfix [c, '*'] = [c, '*'] := by
    simp [toPostfix, toPostfixStep, popGe, h0, h1, h2, h3, h4, h5, h6]
  rw [Regex.new, Nfa.parse, hieco, hpost]
  have hloop : parseLoop [c, '*'] ([], Nfa.new)
      = some ([((Nfa.new.symbol c).2.closure (Nfa.new.symbol c).1).1],
          ((Nfa.new.symbol c).2.closure (Nfa.new.symbol c).1).2) := by
    simp [parseLoop, parseStep, h0, h1, h2, h3, h4, h5, h6]
  rw [hloop]
  rfl

theorem star_trans0 (c : Char) :
    ∀ x, ((starNfa c).stateD 0).transitions x
      = if x = c then some 1 else none :=
  fun _ => rfl

theorem star_trans_none (c : Char) :
    (∀ x, ((starNfa c).stateD 1).transitions x = none) ∧
      (∀ x, ((starNfa c).stateD 2).transitions x = none) ∧
      (∀ x, ((starNfa c).stateD 3).transitions x = none) :=
  ⟨fun _ => rfl, fun _ => rfl, fun _ => rfl⟩

theorem reach_mem_closed (nfa : Nfa) (S : Finset Nat)
    (hclosed : ∀ v ∈ S, ∀ t ∈ nfa.epsOf v, t ∈ S) (a x : Nat) (ha : a ∈ S)
    (h : nfa.Reach a x) : x ∈ S := by
  induction h with
  | refl => exact ha
  | tail hab hbc ih => exact hclosed _ ih _ hbc

theorem eps_closure_eq (nfa : Nfa) (s : Nat) (S : Finset Nat) (hs : s ∈ S)
    (hclosed : ∀ v ∈ S, ∀ t ∈ nfa.epsOf v, t ∈ S)
    (hreach : ∀ x ∈ S, nfa.Reach s x) :
    nfa.epsilon_closure s = S := by
  ext x
  rw [mem_epsilon_closure]
  exact ⟨fun hr => reach_mem_closed nfa S hclosed s x hs hr, hreach x⟩

theorem star_eps (c : Char) :
    (starNfa c).epsOf 0 = [] ∧ (starNfa c).epsOf 1 = [0, 3] ∧
      (starNfa c).epsOf 2 = [0, 3] ∧ (starNfa c).epsOf 3 = [] :=
  ⟨rfl, rfl, rfl, rfl⟩

theorem star_clos2 (c : Char) :
    (starNfa c).epsilon_closure 2 = {0, 2, 3} := by
  apply eps_closure_eq
  · simp
  · intro v hv t ht
    simp only [Finset.mem_insert, Finset.mem_singleton] at hv
    rcases hv with rfl | rfl | rfl
    · rw [(star_eps c).1] at ht
      exact absurd ht (List.not_mem_nil t)
    · rw [(star_eps c).2.2.1] at ht
      simp only [List.mem_cons, List.not_mem_nil, or_false] at ht
      rcases ht with rfl | rfl <;> simp
    · rw [(star_eps c).2.2.2] at ht
      exact absurd ht (List.not_mem_nil t)
  · intro x hx
    simp only [Finset.mem_insert, Finset.mem_singleton] at hx
    rcases hx with rfl | rfl | rfl
    · exact reach_single _ 2 0 (by rw [(star_eps c).2.2.1]; simp)
    · exact reach_refl _ 2
    · exact reach_single _ 2 3 (by rw [(star_eps c).2.2.1]; simp)

theorem star_clos1 (c : Char) :
    (starNfa c).epsilon_closure 1 = {0, 1, 3} := by
  apply eps_closure_eq
  · simp
  · intro v hv t ht
    simp only [Finset.mem_insert, Finset.mem_singleton] at hv
    rcases hv with rfl | rfl | rfl
    · rw [(star_eps c).1] at ht
      exact absurd ht (List.not_mem_nil t)
    · rw [(star_eps c).2.1] at ht
      simp only [List.mem_cons, List.not_mem_nil, or_false] at ht
      rcases ht with rfl | rfl <;> simp
    · rw [(star_eps c).2.2.2] at ht
      exact absurd ht (List.not_mem_nil t)
  · intro x hx
    simp only [Finset.mem_insert, Finset.mem_singleton] at hx
    rcases hx with rfl | rfl | rfl
    · exact reach_single _ 1 0 (by rw [(star_eps c).2.1]; simp)
    · exact reach_refl _ 1
    · exact reach_single _ 1 3 (by rw [(star_eps c).2.1]; simp)

theorem star_contrib_dead (c : Char) (s : Nat) (d : Char)
    (hs : ∀ x, ((starNfa c).stateD s).transitions x = none) :
    (starNfa c).stateContrib d s = ∅ := by
  rw [Nfa.stateContrib, hs d, hs '.']

theorem star_contrib0 (c : Char) :
    (starNfa c).stateContrib c 0 = {0, 1, 3} := by
  rw [Nfa.stateContrib, star_trans0 c c, if_pos rfl]
  exact star_clos1 c

theorem star_step (c : Char) (S : Finset Nat) (h0 : 0 ∈ S)
    (hsub : ∀ s ∈ S, s = 0 ∨ s = 1 ∨ s = 2 ∨ s = 3) :
    (starNfa c).stepChar S c = {0, 1, 3} := by
  apply Finset.Subset.antisymm
  · intro x hx
    rcases Finset.mem_biUnion.mp hx with ⟨s, hs, hxs⟩
    rcases hsub s hs with rfl | rfl | rfl | rfl
    · rw [star_contrib0 c] at hxs
      exact hxs
    · rw [star_contrib_dead c 1 c (star_trans_none c).1] at hxs
      exact absurd hxs (Finset.not_mem_empty x)
    · rw [star_contrib_dead c 2 c (star_trans_none c).2.1] at hxs
      exact absurd hxs (Finset.not_mem_empty x)
    · rw [star_contrib_dead c 3 c (star_trans_none c).2.2] at hxs
      exact absurd hxs (Finset.not_mem_empty x)
  · intro x hx
    apply Finset.mem_biUnion.mpr
    refine ⟨0, h0, ?_⟩
    rw [star_contrib0 c]
    exact hx

theorem star_fold (c : Char) (k : Nat) :
    (List.replicate k c).foldl (starNfa c).stepChar ({0, 1, 3} : Finset Nat)
      = {0, 1, 3} := by
  induction k with
  | zero => rfl
  | succ m ih =>
    rw [List.replicate_succ, List.foldl_cons,
      star_step c _ (by decide) (by decide), ih]

/-- C2 (amended): the closure law holds for single-symbol patterns: for every
literal symbol `c` and every `n ≥ 0`, `matches(compile(c ++ "*"),
repeat(c, n))` is `true`. -/
theorem claim2_star_single (c : Char) (hc : isLit c) (n : Nat) :
    is_match ([c] ++ ['*']) (repeatPat [c] n) = some true := by
  rw [is_match, show [c] ++ ['*'] = [c, '*'] from rfl, star_compile c hc]
  show some (Regex.matches ⟨starNfa c, 2⟩ (repeatPat [c] n)) = some true
  congr 1
  rw [Regex.matches, Nfa.matches, repeatPat_singleton]
  simp only [star_clos2 c]
  cases n with
  | zero =>
    simp only [List.replicate, List.foldl_nil]
    rw [decide_eq_true_eq]
    exact ⟨3, by simp, rfl⟩
  | succ m =>
    rw [List.replicate_succ, List.foldl_cons,
      star_step c _ (by simp) (by decide), star_fold c m]
    rw [decide_eq_true_eq]
    exact ⟨3, by simp, rfl⟩

theorem claim2_witness :
    isLit 'a' ∧ is_match (['a'] ++ ['*']) (repeatPat ['a'] 3) = some true :=
  ⟨by decide, claim2_star_single 'a' (by decide) 3⟩

end RegexThompson

namespace RegexThompson

theorem ieco_lit_fold (cs : List Char) :
    ∀ (out : List Char) (p : Char), isLit p → (∀ c ∈ cs, isLit c) →
      ∃ q, isLit q ∧
        cs.foldl iecoStep (out, some p)
          = (out ++ cs.flatMap (fun d => ['\x00', d]), some q) := by
  induction cs with
  | nil =>
    intro out p hp _
    exact ⟨p, hp, by simp⟩
  | cons d ds ih =>
    intro out p hp hlits
    have hd : isLit d := hlits d (by simp)
    have hstep : iecoStep (out, some p) d = (out ++ ['\x00', d], some d) := by
      obtain ⟨p0, p1, p2, p3, p4, p5, p6⟩ := hp
      obtain ⟨d0, d1, d2, d3, d4, d5, d6⟩ := hd
      simp [iecoStep, p1, p5, d1, d2, d3, d4, d6]
    rw [List.foldl_cons, hstep]
    obtain ⟨q, hq, hfold⟩ := ih (out ++ ['\x00', d]) d hd
      (fun c hc => hlits c (by simp [hc]))
    exact ⟨q, hq, by rw [hfold]; simp⟩

theorem ieco_lit (c : Char) (ds : List Char) (hc : isLit c)
    (hds : ∀ x ∈ ds, isLit x) :
    insert_explicit_concat_operator (c :: ds) = preLit (c :: ds) := by
  rw [insert_explicit_concat_operator, List.foldl_cons]
  have h1 : iecoStep ([], none) c = ([c], some c) := rfl
  rw [h1]
  obtain ⟨q, _, hfold⟩ := ieco_lit_fold ds [c] c hc hds
  rw [hfold]
  rfl

theorem ieco_union (c : Char) (ds : List Char) (d : Char) (es : List Char)
    (hc : isLit c) (hds : ∀ x ∈ ds, isLit x) (hd : isLit d)
    (hes : ∀ x ∈ es, isLit x) :
    insert_explicit_concat_operator ((c :: ds) ++ '|' :: d :: es)
      = preLit (c :: ds) ++ '|' :: preLit (d :: es) := by
  obtain ⟨q, hq, hfold⟩ := ieco_lit_fold ds [c] c hc hds
  have hfirst : List.foldl iecoStep (([] : List Char), (none : Option Char))
      (c :: ds) = (c :: ds.flatMap (fun x => ['\x00', x]), some q) := by
    rw [List.foldl_cons]
    have h1 : iecoStep ([], none) c = ([c], some c) := rfl
    rw [h1, hfold]
    rfl
  rw [insert_explicit_concat_operator, List.foldl_append, hfirst,
    List.foldl_cons]
  have h2 : iecoStep (c :: ds.flatMap (fun x => ['\x00', x]), some q) '|'
      = (preLit (c :: ds) ++ ['|'], some '|') := by
    simp [iecoStep, preLit]
  rw [h2, List.foldl_cons]
  have h3 : iecoStep (preLit (c :: ds) ++ ['|'], some '|') d
      = (preLit (c :: ds) ++ ['|'] ++ [d], some d) := by
    simp [iecoStep]
  rw [h3]
  obtain ⟨r, _, hfold2⟩ := ieco_lit_fold es (preLit (c :: ds) ++ ['|'] ++ [d]) d hd hes
  rw [hfold2]
  simp [preLit]

end RegexThompson

namespace RegexThompson

theorem tpStep_lit (out opstack : List Char) (d : Char) (hd : isLit d) :
    toPostfixStep (out, opstack) d = (out ++ [d], opstack) := by
  obtain ⟨d0, d1, d2, d3, d4, d5, d6⟩ := hd
  simp [toPostfixStep, d0, d1, d2, d3, d4, d5, d6]

theorem tpStep_op (out opstack : List Char) (t : Char)
    (ht : t = '\x00' ∨ t = '|' ∨ t = '*' ∨ t = '?' ∨ t = '+') :
    toPostfixStep (out, opstack) t
      = ((popGe opstack t out).1, t :: (popGe opstack t out).2) := by
  have h5 : t ≠ '(' := by rcases ht with rfl | rfl | rfl | rfl | rfl <;> decide
  have h6 : t ≠ ')' := by rcases ht with rfl | rfl | rfl | rfl | rfl <;> decide
  simp [toPostfixStep, h5, h6, ht]

theorem popGe_blocks (bot : List Char) (out : List Char)
    (hbot : blocksOne bot) : popGe bot '\x00' out = (out, bot) := by
  cases bot with
  | nil => rfl
  | cons t rest =>
    rcases hbot t rfl with rfl | hlt
    · simp [popGe]
    · rw [popGe, if_neg]
      intro hcond
      have := hcond.2
      rw [show precD '\x00' = 1 from rfl] at this
      omega

theorem popGe_concat_pop (bot : List Char) (out : List Char)
    (hbot : blocksOne bot) :
    popGe ('\x00' :: bot) '\x00' out = (out ++ ['\x00'], bot) := by
  rw [popGe, if_pos (by refine ⟨by decide, le_refl _⟩)]
  exact popGe_blocks bot (out ++ ['\x00']) hbot

theorem blocksOne_union : blocksOne ['|'] := by
  intro t ht
  simp only [List.head?_cons, Option.some.injEq] at ht
  subst ht
  right
  decide

theorem blocksOne_nil : blocksOne [] := by
  intro t ht
  simp at ht

theorem tpStep_concat_pop (out bot : List Char) (hbot : blocksOne bot) :
    toPostfixStep (out, '\x00' :: bot) '\x00' = (out ++ ['\x00'], '\x00' :: bot) := by
  rw [tpStep_op _ _ _ (Or.inl rfl), popGe_concat_pop bot out hbot]

theorem tpStep_concat_fresh (out bot : List Char) (hbot : blocksOne bot) :
    toPostfixStep (out, bot) '\x00' = (out, '\x00' :: bot) := by
  rw [tpStep_op _ _ _ (Or.inl rfl), popGe_blocks bot out hbot]

theorem tpStep_union_nil (out : List Char) :
    toPostfixStep (out, []) '|' = (out, ['|']) := by
  rw [tpStep_op _ _ _ (Or.inr (Or.inl rfl))]
  rfl

theorem tpStep_union_concat (out : List Char) :
    toPostfixStep (out, ['\x00']) '|' = (out ++ ['\x00'], ['|']) := by
  rw [tpStep_op _ _ _ (Or.inr (Or.inl rfl)), popGe,
    if_pos (by exact ⟨by decide, by decide⟩), popGe]

theorem tp_pairs (ds : List Char) :
    ∀ (out bot : List Char), (∀ d ∈ ds, isLit d) → blocksOne bot →
      (ds.flatMap (fun d => ['\x00', d])).foldl toPostfixStep (out, '\x00' :: bot)
        = (out ++ ds.flatMap (fun d => ['\x00', d]), '\x00' :: bot) := by
  induction ds with
  | nil => intro out bot _ _; simp
  | cons d es ih =>
    intro out bot hlits hbot
    have hd : isLit d := hlits d (by simp)
    have hflat : (d :: es).flatMap (fun x => ['\x00', x])
        = '\x00' :: d :: es.flatMap (fun x => ['\x00', x]) := rfl
    rw [hflat, List.foldl_cons, tpStep_concat_pop out bot hbot, List.foldl_cons,
      tpStep_lit (out ++ ['\x00']) ('\x00' :: bot) d hd,
      ih (out ++ ['\x00'] ++ [d]) bot (fun x hx => hlits x (by simp [hx])) hbot]
    simp

theorem tp_lit_single (c : Char) (out bot : List Char) (hc : isLit c) :
    (preLit [c]).foldl toPostfixStep (out, bot) = (out ++ [c], bot) := by
  rw [preLit]
  simp only [List.flatMap_nil, List.foldl_cons, List.foldl_nil]
  rw [tpStep_lit out bot c hc]

theorem tp_lit_multi (c d : Char) (es : List Char) (out bot : List Char)
    (hc : isLit c) (hd : isLit d) (hes : ∀ x ∈ es, isLit x)
    (hbot : blocksOne bot) :
    (preLit (c :: d :: es)).foldl toPostfixStep (out, bot)
      = (out ++ c :: d :: es.flatMap (fun x => ['\x00', x]), '\x00' :: bot) := by
  have hflat : preLit (c :: d :: es)
      = c :: '\x00' :: d :: es.flatMap (fun x => ['\x00', x]) := rfl
  rw [hflat, List.foldl_cons, tpStep_lit out bot c hc, List.foldl_cons,
    tpStep_concat_fresh (out ++ [c]) bot hbot, List.foldl_cons,
    tpStep_lit (out ++ [c]) ('\x00' :: bot) d hd,
    tp_pairs es (out ++ [c] ++ [d]) bot hes hbot]
  simp

theorem flatShift (es : List Char) :
    es.flatMap (fun x => ['\x00', x]) ++ ['\x00']
      = '\x00' :: es.flatMap (fun x => [x, '\x00']) := by
  induction es with
  | nil => rfl
  | cons e es2 ih =>
    simp only [List.flatMap_cons, List.append_assoc, List.cons_append,
      List.nil_append] at ih ⊢
    rw [ih]

theorem toPostfix_lit (c : Char) (ds : List Char) (hc : isLit c)
    (hds : ∀ x ∈ ds, isLit x) :
    toPostfix (preLit (c :: ds)) = postLit (c :: ds) := by
  cases ds with
  | nil =>
    rw [toPostfix, tp_lit_single c [] [] hc]
    rfl
  | cons d es =>
    rw [toPostfix, tp_lit_multi c d es [] [] hc (hds d (by simp))
      (fun x hx => hds x (by simp [hx])) blocksOne_nil]
    show (c :: d :: es.flatMap (fun x => ['\x00', x])) ++ ['\x00']
      = postLit (c :: d :: es)
    rw [postLit]
    simp only [List.flatMap_cons, List.cons_append]
    rw [show es.flatMap (fun x => ['\x00', x]) ++ ['\x00']
        = '\x00' :: es.flatMap (fun x => [x, '\x00']) from flatShift es]
    rfl

end RegexThompson

namespace RegexThompson

theorem tp_seg_bar (c : Char) (ds : List Char) (hc : isLit c)
    (hds : ∀ x ∈ ds, isLit x) :
    toPostfixStep ((preLit (c :: ds)).foldl toPostfixStep ([], [])) '|'
      = (postLit (c :: ds), ['|']) := by
  cases ds with
  | nil =>
    rw [tp_lit_single c [] [] hc, tpStep_union_nil]
    simp [postLit]
  | cons d2 es2 =>
    rw [tp_lit_multi c d2 es2 [] [] hc (hds d2 (by simp))
      (fun x hx => hds x (by simp [hx])) blocksOne_nil, tpStep_union_concat]
    simp only [List.nil_append, List.cons_append]
    rw [flatShift es2]
    rfl

theorem toPostfix_union (c : Char) (ds : List Char) (d : Char) (es : List Char)
    (hc : isLit c) (hds : ∀ x ∈ ds, isLit x) (hd : isLit d)
    (hes : ∀ x ∈ es, isLit x) :
    toPostfix (preLit (c :: ds) ++ '|' :: preLit (d :: es))
      = postLit (c :: ds) ++ postLit (d :: es) ++ ['|'] := by
  rw [toPostfix, List.foldl_append, List.foldl_cons, tp_seg_bar c ds hc hds]
  cases es with
  | nil =>
    rw [tp_lit_single d (postLit (c :: ds)) ['|'] hd]
    show (postLit (c :: ds) ++ [d]) ++ ['|'] = _
    simp [postLit]
  | cons e es2 =>
    rw [tp_lit_multi d e es2 (postLit (c :: ds)) ['|'] hd (hes e (by simp))
      (fun x hx => hes x (by simp [hx])) blocksOne_union]
    show (postLit (c :: ds) ++ d :: e :: es2.flatMap (fun x => ['\x00', x]))
        ++ ('\x00' :: ['|']) = _
    have hq : postLit (d :: e :: es2)
        = d :: e :: es2.flatMap (fun x => ['\x00', x]) ++ ['\x00'] := by
      rw [postLit]
      simp only [List.flatMap_cons, List.cons_append]
      rw [flatShift es2]
      simp
    rw [hq]
    simp

end RegexThompson

namespace RegexThompson

theorem getD_append_lt {α : Type} (l l2 : List α) (i : Nat) (d : α)
    (h : i < l.length) : (l ++ l2).getD i d = l.getD i d := by
  rw [List.getD_eq_getElem?_getD, List.getElem?_append_left h,
    ← List.getD_eq_getElem?_getD]

theorem getD_append_self {α : Type} (l : List α) (x : α) (d : α) :
    (l ++ [x]).getD l.length d = x := by
  rw [List.getD_eq_getElem?_getD, List.getElem?_append_right (le_refl _)]
  simp

theorem chainShape_snoc (nfa : Nfa) (L : Nat) (done : List Char) (d : Char)
    (k : Nat) (hk : done.length = k + 1)
    (hshape : ChainShape nfa L done none)
    (hlen : nfa.states.length = L + 2 * done.length) :
    ChainShape ((nfa.symbol d).2.concat ⟨L, L + 2 * done.length - 1⟩
        ⟨L + 2 * done.length, L + 2 * done.length + 1⟩).2 L (done ++ [d]) none ∧
      ((nfa.symbol d).2.concat ⟨L, L + 2 * done.length - 1⟩
        ⟨L + 2 * done.length, L + 2 * done.length + 1⟩).2.states.length
        = L + 2 * (done.length + 1) ∧
      ∀ i, i < L →
        ((nfa.symbol d).2.concat ⟨L, L + 2 * done.length - 1⟩
          ⟨L + 2 * done.length, L + 2 * done.length + 1⟩).2.stateD i
          = nfa.stateD i := by
  obtain ⟨hS1, hS2, hS3, hS4, hS5⟩ := symbol_spec nfa d
  have hM : nfa.states.length = L + 2 * (k + 1) := by rw [hlen, hk]
  have hstop : (Fragment.mk L (L + 2 * done.length - 1)).stop
      = L + 2 * k + 1 := by
    show L + 2 * done.length - 1 = L + 2 * k + 1
    omega
  obtain ⟨hC1, hC2, hC3, hC4⟩ :=
    concat_spec (nfa.symbol d).2 ⟨L, L + 2 * done.length - 1⟩
      ⟨L + 2 * done.length, L + 2 * done.length + 1⟩
      (by rw [hstop, hS2, hM]; omega)
  rw [hstop] at hC3 hC4
  -- state lookups in the extended automaton
  have hmid : ((nfa.symbol d).2.concat ⟨L, L + 2 * done.length - 1⟩
      ⟨L + 2 * done.length, L + 2 * done.length + 1⟩).2.stateD (L + 2 * k + 1)
      = (((nfa.stateD (L + 2 * k + 1)).insertEps
          (L + 2 * done.length)).setAccepting false) := by
    rw [hC4, hS3 (L + 2 * k + 1) (by omega) (by omega)]
  have hold : ∀ i, i ≠ L + 2 * k + 1 → i ≠ L + 2 * (k + 1) →
      i ≠ L + 2 * (k + 1) + 1 →
      ((nfa.symbol d).2.concat ⟨L, L + 2 * done.length - 1⟩
        ⟨L + 2 * done.length, L + 2 * done.length + 1⟩).2.stateD i
        = nfa.stateD i := by
    intro i h1 h2 h3
    rw [hC3 i h1, hS3 i (by omega) (by omega)]
  have hnew : ((nfa.symbol d).2.concat ⟨L, L + 2 * done.length - 1⟩
      ⟨L + 2 * done.length, L + 2 * done.length + 1⟩).2.stateD (L + 2 * (k + 1))
      = (State.new nfa.states.length false).insertTransition d
          (nfa.states.length + 1) := by
    rw [hC3 _ (by omega), show L + 2 * (k + 1) = nfa.states.length from by omega,
      hS4]
  have hnew2 : ((nfa.symbol d).2.concat ⟨L, L + 2 * done.length - 1⟩
      ⟨L + 2 * done.length, L + 2 * done.length + 1⟩).2.stateD
        (L + 2 * (k + 1) + 1)
      = State.new (nfa.states.length + 1) true := by
    rw [hC3 _ (by omega),
      show L + 2 * (k + 1) + 1 = nfa.states.length + 1 from by omega, hS5]
  have hlen2 : (done ++ [d]).length = k + 2 := by simp [hk]
  refine ⟨?_, ?_, ?_⟩
  · refine ⟨by simp, ?_, ?_, ?_, ?_, ?_, ?_, ?_, ?_, ?_, ?_, ?_⟩
    · -- evenTrans
      intro i hi x
      rw [hlen2] at hi
      by_cases hik : i < k + 1
      · rw [hold (L + 2 * i) (by omega) (by omega) (by omega),
          getD_append_lt done [d] i ' ' (by omega)]
        exact hshape.evenTrans i (by omega) x
      · have hieq : i = k + 1 := by omega
        subst hieq
        rw [hnew]
        simp only [State.insertTransition, State.new]
        rw [show (done ++ [d]).getD (k + 1) ' ' = d from by
          rw [← hk]; exact getD_append_self done d ' ']
        by_cases hx : x = d
        · rw [if_pos hx, if_pos hx, hM]
        · rw [if_neg hx, if_neg hx]
    · -- evenEps
      intro i hi
      rw [hlen2] at hi
      by_cases hik : i < k + 1
      · rw [Nfa.epsOf, hold (L + 2 * i) (by omega) (by omega) (by omega)]
        exact hshape.evenEps i (by omega)
      · have hieq : i = k + 1 := by omega
        subst hieq
        rw [Nfa.epsOf, hnew]
        rfl
    · -- evenAcc
      intro i hi
      rw [hlen2] at hi
      by_cases hik : i < k + 1
      · rw [hold (L + 2 * i) (by omega) (by omega) (by omega)]
        exact hshape.evenAcc i (by omega)
      · have hieq : i = k + 1 := by omega
        subst hieq
        rw [hnew]
        rfl
    · -- oddTrans
      intro i hi x
      rw [hlen2] at hi
      by_cases hik : i < k
      · rw [hold (L + 2 * i + 1) (by omega) (by omega) (by omega)]
        exact hshape.oddTrans i (by omega) x
      · by_cases hik2 : i = k
        · rw [hik2, hmid]
          show (nfa.stateD (L + 2 * k + 1)).transitions x = none
          exact hshape.oddTrans k (by omega) x
        · have hieq : i = k + 1 := by omega
          subst hieq
          rw [hnew2]
          rfl
    · -- oddEpsMid
      intro i hi
      rw [hlen2] at hi
      by_cases hik : i < k
      · rw [Nfa.epsOf, hold (L + 2 * i + 1) (by omega) (by omega) (by omega)]
        exact hshape.oddEpsMid i (by omega)
      · have hieq : i = k := by omega
        rw [hieq, Nfa.epsOf, hmid]
        show ((nfa.stateD (L + 2 * k + 1)).insertEps
          (L + 2 * done.length)).epsilon_transitions = [L + 2 * k + 2]
        have hlast : (nfa.stateD (L + 2 * k + 1)).epsilon_transitions = [] := by
          have h0 := hshape.oddEpsLast
          rw [Nfa.epsOf, hk,
            show L + 2 * (k + 1) - 1 = L + 2 * k + 1 from by omega] at h0
          simpa using h0
        simp only [State.insertEps, hlast]
        simp only [List.not_mem_nil, if_false, List.nil_append]
        rw [show L + 2 * done.length = L + 2 * k + 2 from by omega]
    · -- oddAccMid
      intro i hi
      rw [hlen2] at hi
      by_cases hik : i < k
      · rw [hold (L + 2 * i + 1) (by omega) (by omega) (by omega)]
        exact hshape.oddAccMid i (by omega)
      · have hieq : i = k := by omega
        rw [hieq, hmid]
        rfl
    · -- oddEpsLast
      rw [hlen2, Nfa.epsOf,
        show L + 2 * (k + 2) - 1 = L + 2 * (k + 1) + 1 from by omega, hnew2]
      rfl
    · -- oddAccLast
      rw [hlen2,
        show L + 2 * (k + 2) - 1 = L + 2 * (k + 1) + 1 from by omega, hnew2]
      rfl
    · exact fun u hu => Option.noConfusion hu
    · exact fun u hu => Option.noConfusion hu
    · exact fun u hu => Option.noConfusion hu
  · rw [hC2, hS2]
    omega
  · intro i hi
    rcases Nat.eq_zero_or_pos done.length with h0 | hpos
    · rw [hk] at h0
      omega
    · exact hold i (by omega) (by omega) (by omega)

end RegexThompson

namespace RegexThompson

theorem parseLoop_append (xs ys : List Char) :
    ∀ st, parseLoop (xs ++ ys) st = (parseLoop xs st).bind (parseLoop ys) := by
  induction xs with
  | nil => intro st; simp [parseLoop]
  | cons t ts ih =>
    intro st
    rw [List.cons_append, parseLoop, parseLoop]
    cases parseStep t st with
    | none => simp
    | some st1 => simp [ih st1]

theorem pStep_lit (d : Char) (hd : isLit d) (st : List Fragment × Nfa) :
    parseStep d st = some ((st.2.symbol d).1 :: st.1, (st.2.symbol d).2) := by
  obtain ⟨d0, d1, d2, _, _, _, _⟩ := hd
  simp [parseStep, d0, d1, d2]

theorem pStep_concat (f2 f1 : Fragment) (rest : List Fragment) (nfa : Nfa) :
    parseStep '\x00' (f2 :: f1 :: rest, nfa)
      = some ((nfa.concat f1 f2).1 :: rest, (nfa.concat f1 f2).2) := rfl

theorem pStep_union (f2 f1 : Fragment) (rest : List Fragment) (nfa : Nfa) :
    parseStep '|' (f2 :: f1 :: rest, nfa)
      = some ((nfa.union f1 f2).1 :: rest, (nfa.union f1 f2).2) := rfl

theorem chainShape_base (nfa : Nfa) (c : Char) (L : Nat)
    (hlen : nfa.states.length = L) :
    ChainShape (nfa.symbol c).2 L [c] none ∧
      (nfa.symbol c).2.states.length = L + 2 ∧
      ∀ i, i < L → (nfa.symbol c).2.stateD i = nfa.stateD i := by
  obtain ⟨hS1, hS2, hS3, hS4, hS5⟩ := symbol_spec nfa c
  rw [hlen] at hS2 hS3 hS4 hS5
  refine ⟨?_, hS2, ?_⟩
  · refine ⟨by simp, ?_, ?_, ?_, ?_, ?_, ?_, ?_, ?_, ?_, ?_, ?_⟩
    · intro i hi x
      simp only [List.length_singleton] at hi
      have hieq : i = 0 := by omega
      subst hieq
      rw [show L + 2 * 0 = L from by omega, hS4]
      simp only [State.insertTransition, State.new, List.getD_cons_zero]
    · intro i hi
      simp only [List.length_singleton] at hi
      have hieq : i = 0 := by omega
      subst hieq
      rw [Nfa.epsOf, show L + 2 * 0 = L from by omega, hS4]
      rfl
    · intro i hi
      simp only [List.length_singleton] at hi
      have hieq : i = 0 := by omega
      subst hieq
      rw [show L + 2 * 0 = L from by omega, hS4]
      rfl
    · intro i hi x
      simp only [List.length_singleton] at hi
      have hieq : i = 0 := by omega
      subst hieq
      rw [show L + 2 * 0 + 1 = L + 1 from by omega, hS5]
      rfl
    · intro i hi
      simp only [List.length_singleton] at hi
      omega
    · intro i hi
      simp only [List.length_singleton] at hi
      omega
    · rw [Nfa.epsOf, show L + 2 * [c].length - 1 = L + 1 from by simp, hS5]
      rfl
    · rw [show L + 2 * [c].length - 1 = L + 1 from by simp, hS5]
      rfl
    · exact fun u hu => Option.noConfusion hu
    · exact fun u hu => Option.noConfusion hu
    · exact fun u hu => Option.noConfusion hu
  · intro i hi
    exact hS3 i (by omega) (by omega)

theorem chain_build_ext (es : List Char) :
    ∀ (done : List Char) (k : Nat) (nfa nfa0 : Nfa) (stack0 : List Fragment)
      (L : Nat),
      (∀ x ∈ es, isLit x) → done.length = k + 1 →
      ChainShape nfa L done none →
      nfa.states.length = L + 2 * done.length →
      (∀ i, i < L → nfa.stateD i = nfa0.stateD i) →
      ∃ nfa1,
        parseLoop (es.flatMap (fun x => [x, '\x00']))
            (⟨L, L + 2 * done.length - 1⟩ :: stack0, nfa)
          = some (⟨L, L + 2 * (done.length + es.length) - 1⟩ :: stack0, nfa1) ∧
        ChainShape nfa1 L (done ++ es) none ∧
        nfa1.states.length = L + 2 * (done.length + es.length) ∧
        ∀ i, i < L → nfa1.stateD i = nfa0.stateD i := by
  induction es with
  | nil =>
    intro done k nfa nfa0 stack0 L _ hk hshape hlen hpres
    refine ⟨nfa, ?_, by simpa using hshape, by simpa using hlen, hpres⟩
    simp [parseLoop]
  | cons d es2 ih =>
    intro done k nfa nfa0 stack0 L hlits hk hshape hlen hpres
    have hd : isLit d := hlits d (by simp)
    have hfragS : (nfa.symbol d).1
        = ⟨L + 2 * done.length, L + 2 * done.length + 1⟩ := by
      rw [(symbol_spec nfa d).1, hlen]
    obtain ⟨hcs2, hlen2, hpres2⟩ :=
      chainShape_snoc nfa L done d k hk hshape hlen
    have htok : (d :: es2).flatMap (fun x => [x, '\x00'])
        = d :: '\x00' :: es2.flatMap (fun x => [x, '\x00']) := rfl
    rw [htok, parseLoop, pStep_lit d hd, Option.some_bind, hfragS, parseLoop,
      pStep_concat, Option.some_bind]
    have hfragC : ((nfa.symbol d).2.concat ⟨L, L + 2 * done.length - 1⟩
        ⟨L + 2 * done.length, L + 2 * done.length + 1⟩).1
        = ⟨L, L + 2 * done.length + 1⟩ := rfl
    rw [hfragC]
    obtain ⟨nfa1, hpl, hcs1, hlen1, hpres1⟩ :=
      ih (done ++ [d]) (k + 1)
        ((nfa.symbol d).2.concat ⟨L, L + 2 * done.length - 1⟩
          ⟨L + 2 * done.length, L + 2 * done.length + 1⟩).2
        nfa0 stack0 L (fun x hx => hlits x (by simp [hx]))
        (by simp [hk]) hcs2 (by rw [hlen2]; simp)
        (fun i hi => (hpres2 i hi).trans (hpres i hi))
    have ha1 : L + 2 * (done ++ [d]).length - 1 = L + 2 * done.length + 1 := by
      simp
      omega
    have ha2 : L + 2 * ((done ++ [d]).length + es2.length) - 1
        = L + 2 * (done.length + (d :: es2).length) - 1 := by
      simp
      omega
    have ha3 : L + 2 * ((done ++ [d]).length + es2.length)
        = L + 2 * (done.length + (d :: es2).length) := by
      simp
      omega
    rw [ha1, ha2] at hpl
    rw [ha3] at hlen1
    refine ⟨nfa1, hpl, ?_, hlen1, hpres1⟩
    rw [List.append_assoc] at hcs1
    exact hcs1

theorem chain_build (c : Char) (ds : List Char) (hc : isLit c)
    (hds : ∀ x ∈ ds, isLit x) (nfa0 : Nfa) (stack0 : List Fragment) (L : Nat)
    (hlen : nfa0.states.length = L) :
    ∃ nfa1,
      parseLoop (postLit (c :: ds)) (stack0, nfa0)
        = some (⟨L, L + 2 * (c :: ds).length - 1⟩ :: stack0, nfa1) ∧
      ChainShape nfa1 L (c :: ds) none ∧
      nfa1.states.length = L + 2 * (c :: ds).length ∧
      ∀ i, i < L → nfa1.stateD i = nfa0.stateD i := by
  have hfragS : (nfa0.symbol c).1 = ⟨L, L + 1⟩ := by
    rw [(symbol_spec nfa0 c).1, hlen]
  obtain ⟨hbase, hblen, hbpres⟩ := chainShape_base nfa0 c L hlen
  rw [postLit, parseLoop, pStep_lit c hc, Option.some_bind, hfragS]
  obtain ⟨nfa1, hpl, hcs1, hlen1, hpres1⟩ :=
    chain_build_ext ds [c] 0 (nfa0.symbol c).2 nfa0 stack0 L hds (by simp)
      hbase (by rw [hblen]; simp) hbpres
  have ha1 : L + 2 * [c].length - 1 = L + 1 := by simp
  have ha2 : L + 2 * ([c].length + ds.length) - 1
      = L + 2 * (c :: ds).length - 1 := by simp; omega
  have ha3 : L + 2 * ([c].length + ds.length) = L + 2 * (c :: ds).length := by
    simp
    omega
  rw [ha1, ha2] at hpl
  rw [ha3] at hlen1
  refine ⟨nfa1, hpl, ?_, hlen1, hpres1⟩
  simpa using hcs1

end RegexThompson

namespace RegexThompson

theorem clos_of_eps_nil (nfa : Nfa) (a : Nat) (h : nfa.epsOf a = []) :
    nfa.epsilon_closure a = {a} := by
  apply eps_closure_eq
  · simp
  · intro v hv t ht
    simp only [Finset.mem_singleton] at hv
    subst hv
    rw [h] at ht
    exact absurd ht (List.not_mem_nil t)
  · intro x hx
    simp only [Finset.mem_singleton] at hx
    subst hx
    exact reach_refl _ _

theorem clos_of_eps_single (nfa : Nfa) (a b : Nat) (ha : nfa.epsOf a = [b])
    (hb : nfa.epsOf b = []) : nfa.epsilon_closure a = {a, b} := by
  apply eps_closure_eq
  · simp
  · intro v hv t ht
    simp only [Finset.mem_insert, Finset.mem_singleton] at hv
    rcases hv with rfl | rfl
    · rw [ha] at ht
      simp only [List.mem_cons, List.not_mem_nil, or_false] at ht
      subst ht
      simp
    · rw [hb] at ht
      exact absurd ht (List.not_mem_nil t)
  · intro x hx
    simp only [Finset.mem_insert, Finset.mem_singleton] at hx
    rcases hx with rfl | rfl
    · exact reach_refl _ _
    · exact reach_single _ _ _ (by rw [ha]; simp)

theorem contrib_dead (nfa : Nfa) (s : Nat) (d : Char)
    (hs : ∀ x, (nfa.stateD s).transitions x = none) :
    nfa.stateContrib d s = ∅ := by
  rw [Nfa.stateContrib, hs d, hs '.']

theorem getD_eq_get {α : Type} (l : List α) (j : Nat) (d : α)
    (h : j < l.length) : l.getD j d = l[j] := by
  rw [List.getD_eq_getElem?_getD, List.getElem?_eq_getElem h]
  simp

theorem contrib_even (nfa : Nfa) (L : Nat) (cs : List Char)
    (sink : Option Nat) (hshape : ChainShape nfa L cs sink) (i : Nat)
    (hi : i < cs.length) (d : Char) :
    nfa.stateContrib d (L + 2 * i)
      = if charOK (cs.getD i ' ') d = true
        then nfa.epsilon_closure (L + 2 * i + 1) else ∅ := by
  have hT := hshape.evenTrans i hi
  rw [Nfa.stateContrib, hT d, hT '.']
  by_cases hd : d = cs.getD i ' '
  · have hok : charOK (cs.getD i ' ') d = true := by
      rw [charOK, hd]
      simp
    rw [if_pos hd, if_pos hok]
  · rw [if_neg hd]
    by_cases hdot : cs.getD i ' ' = '.'
    · have hok : charOK (cs.getD i ' ') d = true := by
        rw [charOK, hdot]
        simp
      rw [if_pos hdot.symm, if_pos hok]
    · have hok : ¬(charOK (cs.getD i ' ') d = true) := by
        rw [charOK]
        intro hcon
        rcases Bool.or_eq_true_iff.mp hcon with h1 | h2
        · exact hd (eq_of_beq h1)
        · exact hdot (eq_of_beq h2)
      rw [if_neg (fun h => hdot h.symm), if_neg hok]

end RegexThompson

namespace RegexThompson

theorem chain_clos_odd (nfa : Nfa) (L : Nat) (cs : List Char)
    (sink : Option Nat) (hshape : ChainShape nfa L cs sink) (j : Nat)
    (h1 : 1 ≤ j) (h2 : j ≤ cs.length) :
    nfa.epsilon_closure (L + 2 * j - 1) = chainDom L cs.length j sink := by
  have hn : 0 < cs.length := List.length_pos.mpr hshape.ne
  by_cases hjn : j < cs.length
  · have hmid := hshape.oddEpsMid (j - 1) (by omega)
    rw [show L + 2 * (j - 1) + 1 = L + 2 * j - 1 from by omega,
      show L + 2 * (j - 1) + 2 = L + 2 * j from by omega] at hmid
    have heven := hshape.evenEps j hjn
    rw [chainDom, if_neg (by omega), if_pos hjn]
    exact clos_of_eps_single nfa _ _ hmid heven
  · have hjeq : j = cs.length := by omega
    subst hjeq
    rw [chainDom, if_neg (by omega), if_neg (by omega)]
    cases hsink : sink with
    | none =>
      have hlast := hshape.oddEpsLast
      rw [hsink] at hlast
      simp only [Option.map_none', Option.getD_none] at hlast ⊢
      exact clos_of_eps_nil nfa _ hlast
    | some u =>
      have hlast := hshape.oddEpsLast
      rw [hsink] at hlast
      simp only [Option.map_some', Option.getD_some] at hlast ⊢
      exact clos_of_eps_single nfa _ _ hlast (hshape.sinkEps u hsink)

theorem step_chainDom (nfa : Nfa) (L : Nat) (cs : List Char)
    (sink : Option Nat) (hshape : ChainShape nfa L cs sink) (d : Char)
    (j : Nat) (hj : j ≤ cs.length) :
    nfa.stepChar (chainDom L cs.length j sink) d
      = if j < cs.length ∧ charOK (cs.getD j ' ') d = true
        then chainDom L cs.length (j + 1) sink else ∅ := by
  have hn : 0 < cs.length := List.length_pos.mpr hshape.ne
  by_cases hj0 : j = 0
  · subst hj0
    rw [chainDom, if_pos rfl, Nfa.stepChar, Finset.singleton_biUnion]
    have hc := contrib_even nfa L cs sink hshape 0 hn d
    rw [show L + 2 * 0 = L from by omega, show L + 2 * 0 + 1 = L + 1 from by omega]
      at hc
    rw [hc]
    by_cases hok : charOK (cs.getD 0 ' ') d = true
    · rw [if_pos hok, if_pos ⟨hn, hok⟩]
      have := chain_clos_odd nfa L cs sink hshape 1 (le_refl 1) (by omega)
      rw [show L + 2 * 1 - 1 = L + 1 from by omega] at this
      exact this
    · rw [if_neg hok, if_neg (fun hcon => hok hcon.2)]
  · by_cases hjn : j < cs.length
    · rw [chainDom, if_neg hj0, if_pos hjn, Nfa.stepChar, Finset.biUnion_insert,
        Finset.singleton_biUnion]
      have hdead : nfa.stateContrib d (L + 2 * j - 1) = ∅ := by
        apply contrib_dead
        intro x
        have := hshape.oddTrans (j - 1) (by omega) x
        rw [show L + 2 * (j - 1) + 1 = L + 2 * j - 1 from by omega] at this
        exact this
      rw [hdead, Finset.empty_union]
      have hc := contrib_even nfa L cs sink hshape j hjn d
      rw [hc]
      by_cases hok : charOK (cs.getD j ' ') d = true
      · rw [if_pos hok, if_pos ⟨hjn, hok⟩]
        have := chain_clos_odd nfa L cs sink hshape (j + 1) (by omega) (by omega)
        rw [show L + 2 * (j + 1) - 1 = L + 2 * j + 1 from by omega] at this
        exact this
      · rw [if_neg hok, if_neg (fun hcon => hok hcon.2)]
    · have hjeq : j = cs.length := by omega
      subst hjeq
      rw [chainDom, if_neg (by omega), if_neg (by omega),
        if_neg (fun hcon => absurd hcon.1 (by omega))]
      have hdead1 : nfa.stateContrib d (L + 2 * cs.length - 1) = ∅ := by
        apply contrib_dead
        intro x
        have := hshape.oddTrans (cs.length - 1) (by omega) x
        rw [show L + 2 * (cs.length - 1) + 1 = L + 2 * cs.length - 1 from
          by omega] at this
        exact this
      cases hsink : sink with
      | none =>
        simp only [Option.map_none', Option.getD_none]
        rw [Nfa.stepChar, Finset.singleton_biUnion, hdead1]
      | some u =>
        simp only [Option.map_some', Option.getD_some]
        rw [Nfa.stepChar, Finset.biUnion_insert, Finset.singleton_biUnion,
          hdead1, Finset.empty_union]
        exact contrib_dead nfa u d (hshape.sinkTrans u hsink)

theorem acc_chainDom (nfa : Nfa) (L : Nat) (cs : List Char)
    (sink : Option Nat) (hshape : ChainShape nfa L cs sink) (j : Nat)
    (hj : j ≤ cs.length) :
    decide (∃ st ∈ chainDom L cs.length j sink,
        (nfa.stateD st).accepting = true)
      = decide (j = cs.length) := by
  have hn : 0 < cs.length := List.length_pos.mpr hshape.ne
  rw [decide_eq_decide]
  by_cases hj0 : j = 0
  · subst hj0
    rw [chainDom, if_pos rfl]
    constructor
    · rintro ⟨st, hst, hacc⟩
      simp only [Finset.mem_singleton] at hst
      rw [hst] at hacc
      have := hshape.evenAcc 0 hn
      rw [show L + 2 * 0 = L from by omega] at this
      rw [this] at hacc
      exact absurd hacc (by simp)
    · intro hcon
      omega
  · by_cases hjn : j < cs.length
    · rw [chainDom, if_neg hj0, if_pos hjn]
      constructor
      · rintro ⟨st, hst, hacc⟩
        simp only [Finset.mem_insert, Finset.mem_singleton] at hst
        rcases hst with rfl | rfl
        · have := hshape.oddAccMid (j - 1) (by omega)
          rw [show L + 2 * (j - 1) + 1 = L + 2 * j - 1 from by omega] at this
          rw [this] at hacc
          exact absurd hacc (by simp)
        · have := hshape.evenAcc j hjn
          rw [this] at hacc
          exact absurd hacc (by simp)
      · intro hcon
        omega
    · have hjeq : j = cs.length := by omega
      subst hjeq
      rw [chainDom, if_neg (by omega), if_neg (by omega)]
      constructor
      · intro _
        rfl
      · intro _
        cases hsink : sink with
        | none =>
          simp only [Option.map_none', Option.getD_none]
          refine ⟨L + 2 * cs.length - 1, by simp, ?_⟩
          have := hshape.oddAccLast
          rw [hsink] at this
          exact this
        | some u =>
          simp only [Option.map_some', Option.getD_some]
          exact ⟨u, by simp, hshape.sinkAcc u hsink⟩

theorem foldl_step_empty (nfa : Nfa) (s : List Char) :
    s.foldl nfa.stepChar ∅ = ∅ := by
  induction s with
  | nil => rfl
  | cons d rest ih =>
    have h0 : (∅ : Finset Nat).biUnion (nfa.stateContrib d) = ∅ := by
      ext x
      simp
    rw [List.foldl_cons, Nfa.stepChar, h0]
    exact ih

theorem chain_sim (nfa : Nfa) (L : Nat) (cs : List Char) (sink : Option Nat)
    (hshape : ChainShape nfa L cs sink) :
    ∀ (input : List Char) (j : Nat), j ≤ cs.length →
      decide (∃ st ∈ input.foldl nfa.stepChar (chainDom L cs.length j sink),
          (nfa.stateD st).accepting = true)
        = chainAcceptList (cs.drop j) input := by
  intro input
  induction input with
  | nil =>
    intro j hj
    rw [List.foldl_nil, acc_chainDom nfa L cs sink hshape j hj]
    by_cases hjn : j = cs.length
    · subst hjn
      rw [List.drop_length]
      simp [chainAcceptList]
    · rw [List.drop_eq_getElem_cons (by omega)]
      rw [show chainAcceptList (cs[j] :: cs.drop (j + 1)) [] = false from rfl]
      simp [hjn]
  | cons d rest ih =>
    intro j hj
    rw [List.foldl_cons, step_chainDom nfa L cs sink hshape d j hj]
    by_cases hcond : j < cs.length ∧ charOK (cs.getD j ' ') d = true
    · rw [if_pos hcond, ih (j + 1) (by omega),
        List.drop_eq_getElem_cons hcond.1]
      rw [show chainAcceptList (cs[j] :: cs.drop (j + 1)) (d :: rest)
          = (charOK cs[j] d && chainAcceptList (cs.drop (j + 1)) rest) from rfl]
      have hgj : cs.getD j ' ' = cs[j] := getD_eq_get cs j ' ' hcond.1
      have hok2 : charOK (cs[j]) d = true :=
        (congrArg (fun c => charOK c d) hgj).symm.trans hcond.2
      rw [hok2, Bool.true_and]
    · rw [if_neg hcond, foldl_step_empty]
      have hLHS : decide (∃ st ∈ (∅ : Finset Nat),
          (nfa.stateD st).accepting = true) = false := by simp
      rw [hLHS]
      by_cases hjn : j = cs.length
      · subst hjn
        rw [List.drop_length]
        rfl
      · have hjlt : j < cs.length := by omega
        have hnok : charOK (cs.getD j ' ') d = false := by
          rcases Bool.eq_false_or_eq_true (charOK (cs.getD j ' ') d) with h | h
          · exact absurd ⟨hjlt, h⟩ hcond
          · exact h
        rw [List.drop_eq_getElem_cons hjlt]
        rw [show chainAcceptList (cs[j] :: cs.drop (j + 1)) (d :: rest)
            = (charOK cs[j] d && chainAcceptList (cs.drop (j + 1)) rest) from
          rfl]
        have hgj : cs.getD j ' ' = cs[j] := getD_eq_get cs j ' ' hjlt
        have hnok2 : charOK (cs[j]) d = false :=
          (congrArg (fun c => charOK c d) hgj).symm.trans hnok
        rw [hnok2, Bool.false_and]

end RegexThompson

namespace RegexThompson

theorem chain_compile (c : Char) (ds : List Char) (hc : isLit c)
    (hds : ∀ x ∈ ds, isLit x) :
    ∃ nfa1, Regex.new (c :: ds) = some ⟨nfa1, 0⟩ ∧
      ChainShape nfa1 0 (c :: ds) none := by
  obtain ⟨nfa1, hpl, hcs, hlen, _⟩ := chain_build c ds hc hds Nfa.new [] 0 rfl
  refine ⟨nfa1, ?_, hcs⟩
  have hparse : Nfa.new.parse (c :: ds)
      = some (⟨0, 0 + 2 * (c :: ds).length - 1⟩, nfa1) := by
    rw [Nfa.parse, ieco_lit c ds hc hds, toPostfix_lit c ds hc hds, hpl]
    rfl
  rw [Regex.new, hparse]

theorem chain_is_match (c : Char) (ds : List Char) (hc : isLit c)
    (hds : ∀ x ∈ ds, isLit x) (s : List Char) :
    is_match (c :: ds) s = some (chainAcceptList (c :: ds) s) := by
  obtain ⟨nfa1, hnew, hcs⟩ := chain_compile c ds hc hds
  rw [is_match, hnew]
  show some (Regex.matches ⟨nfa1, 0⟩ s) = _
  congr 1
  show decide (∃ st ∈ s.foldl nfa1.stepChar (nfa1.epsilon_closure 0),
      (nfa1.stateD st).accepting = true) = chainAcceptList (c :: ds) s
  have hinit : nfa1.epsilon_closure 0 = chainDom 0 (c :: ds).length 0 none := by
    rw [chainDom, if_pos rfl]
    have heps := hcs.evenEps 0 (by simp)
    rw [show 0 + 2 * 0 = 0 from rfl] at heps
    exact clos_of_eps_nil nfa1 0 heps
  rw [hinit, chain_sim nfa1 0 (c :: ds) none hcs s 0 (by omega), List.drop_zero]

theorem chainAcceptList_self (p : List Char) : chainAcceptList p p = true := by
  induction p with
  | nil => rfl
  | cons c cs ih =>
    rw [show chainAcceptList (c :: cs) (c :: cs)
        = (charOK c c && chainAcceptList cs cs) from rfl, ih]
    simp [charOK]

theorem chainAcceptList_overrun (p : List Char) (x : Char) :
    chainAcceptList p (p ++ [x]) = false := by
  induction p with
  | nil => rfl
  | cons c cs ih =>
    rw [show chainAcceptList (c :: cs) ((c :: cs) ++ [x])
        = (charOK c c && chainAcceptList cs (cs ++ [x])) from rfl, ih]
    simp

/-- C3 (amended): for every nonempty pattern `p` of literal symbols (no
operator characters), `matches(compile(p), p)` is `true` and, for every
trailing symbol `x`, `matches(compile(p), p + x)` is `false`. -/
theorem claim3_literal_chain (p : List Char) (hne : p ≠ [])
    (hlit : ∀ c ∈ p, isLit c) :
    is_match p p = some true ∧ ∀ x, is_match p (p ++ [x]) = some false := by
  obtain ⟨c, ds, rfl⟩ : ∃ c ds, p = c :: ds := by
    cases p with
    | nil => exact absurd rfl hne
    | cons c ds => exact ⟨c, ds, rfl⟩
  have hc : isLit c := hlit c (by simp)
  have hds : ∀ x ∈ ds, isLit x := fun x hx => hlit x (by simp [hx])
  constructor
  · rw [chain_is_match c ds hc hds, chainAcceptList_self]
  · intro x
    rw [chain_is_match c ds hc hds, chainAcceptList_overrun]

theorem claim3_witness :
    (['a', 'b'] : List Char) ≠ [] ∧ (∀ c ∈ (['a', 'b'] : List Char), isLit c) ∧
      is_match ['a', 'b'] ['a', 'b'] = some true ∧
      is_match ['a', 'b'] (['a', 'b'] ++ ['x']) = some false := by
  have H := claim3_literal_chain ['a', 'b'] (by decide) (by decide)
  exact ⟨by decide, by decide, H.1, H.2 'x'⟩

end RegexThompson

namespace RegexThompson

theorem chainShape_mono (nfa nfa1 : Nfa) (L : Nat) (cs : List Char)
    (h : ChainShape nfa L cs none)
    (heq : ∀ i, L ≤ i → i < L + 2 * cs.length → nfa1.stateD i = nfa.stateD i) :
    ChainShape nfa1 L cs none := by
  have hn : 0 < cs.length := List.length_pos.mpr h.ne
  refine ⟨h.ne, ?_, ?_, ?_, ?_, ?_, ?_, ?_, ?_, ?_, ?_, ?_⟩
  · intro i hi x
    rw [heq (L + 2 * i) (by omega) (by omega)]
    exact h.evenTrans i hi x
  · intro i hi
    rw [Nfa.epsOf, heq (L + 2 * i) (by omega) (by omega)]
    exact h.evenEps i hi
  · intro i hi
    rw [heq (L + 2 * i) (by omega) (by omega)]
    exact h.evenAcc i hi
  · intro i hi x
    rw [heq (L + 2 * i + 1) (by omega) (by omega)]
    exact h.oddTrans i hi x
  · intro i hi
    rw [Nfa.epsOf, heq (L + 2 * i + 1) (by omega) (by omega)]
    exact h.oddEpsMid i hi
  · intro i hi
    rw [heq (L + 2 * i + 1) (by omega) (by omega)]
    exact h.oddAccMid i hi
  · rw [Nfa.epsOf, heq (L + 2 * cs.length - 1) (by omega) (by omega)]
    exact h.oddEpsLast
  · rw [heq (L + 2 * cs.length - 1) (by omega) (by omega)]
    exact h.oddAccLast
  · exact fun u hu => Option.noConfusion hu
  · exact fun u hu => Option.noConfusion hu
  · exact fun u hu => Option.noConfusion hu

theorem chainShape_consumed (nfa2 U : Nfa) (L : Nat) (cs : List Char) (u : Nat)
    (hshape : ChainShape nfa2 L cs none)
    (hoth : ∀ i, L ≤ i → i < L + 2 * cs.length → i ≠ L + 2 * cs.length - 1 →
      U.stateD i = nfa2.stateD i)
    (hend : U.stateD (L + 2 * cs.length - 1)
      = ((nfa2.stateD (L + 2 * cs.length - 1)).insertEps u).setAccepting false)
    (hu_trans : ∀ x, (U.stateD u).transitions x = none)
    (hu_eps : U.epsOf u = [])
    (hu_acc : (U.stateD u).accepting = true) :
    ChainShape U L cs (some u) := by
  have hn : 0 < cs.length := List.length_pos.mpr hshape.ne
  have hlastEps : (nfa2.stateD (L + 2 * cs.length - 1)).epsilon_transitions
      = [] := by
    have h0 := hshape.oddEpsLast
    rw [Nfa.epsOf] at h0
    simpa using h0
  refine ⟨hshape.ne, ?_, ?_, ?_, ?_, ?_, ?_, ?_, ?_, ?_, ?_, ?_⟩
  · intro i hi x
    rw [hoth (L + 2 * i) (by omega) (by omega) (by omega)]
    exact hshape.evenTrans i hi x
  · intro i hi
    rw [Nfa.epsOf, hoth (L + 2 * i) (by omega) (by omega) (by omega)]
    exact hshape.evenEps i hi
  · intro i hi
    rw [hoth (L + 2 * i) (by omega) (by omega) (by omega)]
    exact hshape.evenAcc i hi
  · intro i hi x
    by_cases hil : i = cs.length - 1
    · rw [show L + 2 * i + 1 = L + 2 * cs.length - 1 from by omega, hend]
      show (nfa2.stateD (L + 2 * cs.length - 1)).transitions x = none
      have := hshape.oddTrans (cs.length - 1) (by omega) x
      rw [show L + 2 * (cs.length - 1) + 1 = L + 2 * cs.length - 1 from
        by omega] at this
      exact this
    · rw [hoth (L + 2 * i + 1) (by omega) (by omega) (by omega)]
      exact hshape.oddTrans i hi x
  · intro i hi
    rw [Nfa.epsOf, hoth (L + 2 * i + 1) (by omega) (by omega) (by omega)]
    exact hshape.oddEpsMid i hi
  · intro i hi
    rw [hoth (L + 2 * i + 1) (by omega) (by omega) (by omega)]
    exact hshape.oddAccMid i hi
  · rw [Nfa.epsOf, hend]
    show ((nfa2.stateD (L + 2 * cs.length - 1)).insertEps u).epsilon_transitions
      = _
    simp only [State.insertEps, hlastEps, List.not_mem_nil, if_false,
      List.nil_append, Option.map_some', Option.getD_some]
  · rw [hend]
    rfl
  · intro v hv x
    cases hv
    exact hu_trans x
  · intro v hv
    cases hv
    exact hu_eps
  · intro v hv
    cases hv
    exact hu_acc

end RegexThompson

namespace RegexThompson

theorem union_compile (c : Char) (ds : List Char) (d : Char) (es : List Char)
    (hc : isLit c) (hds : ∀ x ∈ ds, isLit x) (hd : isLit d)
    (hes : ∀ x ∈ es, isLit x) :
    ∃ U : Nfa,
      Regex.new ((c :: ds) ++ '|' :: d :: es)
        = some ⟨U, 2 * (c :: ds).length + 2 * (d :: es).length⟩ ∧
      ChainShape U 0 (c :: ds)
        (some (2 * (c :: ds).length + 2 * (d :: es).length + 1)) ∧
      ChainShape U (2 * (c :: ds).length) (d :: es)
        (some (2 * (c :: ds).length + 2 * (d :: es).length + 1)) ∧
      U.epsOf (2 * (c :: ds).length + 2 * (d :: es).length)
        = [0, 2 * (c :: ds).length] ∧
      (∀ x, (U.stateD
        (2 * (c :: ds).length + 2 * (d :: es).length)).transitions x = none) ∧
      (U.stateD (2 * (c :: ds).length + 2 * (d :: es).length)).accepting
        = false := by
  have hm1 : (c :: ds).length = ds.length + 1 := rfl
  have hk1 : (d :: es).length = es.length + 1 := rfl
  obtain ⟨nfa1, hpl1, hcs1, hlen1, _⟩ := chain_build c ds hc hds Nfa.new [] 0 rfl
  simp only [Nat.zero_add] at hpl1 hcs1 hlen1
  obtain ⟨nfa2, hpl2, hcs2, hlen2, hpres2⟩ :=
    chain_build d es hd hes nfa1 [⟨0, 2 * (c :: ds).length - 1⟩]
      (2 * (c :: ds).length) hlen1
  have hcs1b : ChainShape nfa2 0 (c :: ds) none :=
    chainShape_mono nfa1 nfa2 0 (c :: ds) hcs1
      (fun i _ h2 => hpres2 i (by omega))
  have hstop1 : (2 : Nat) * (c :: ds).length - 1 < nfa2.states.length := by
    rw [hlen2]; omega
  have hstop2 : (2 : Nat) * (c :: ds).length + 2 * (d :: es).length - 1
      < nfa2.states.length := by
    rw [hlen2]; omega
  obtain ⟨hfragU, hlenU, hothU, hstartU, hstopU, hendsU⟩ :=
    union_spec nfa2 ⟨0, 2 * (c :: ds).length - 1⟩
      ⟨2 * (c :: ds).length,
        2 * (c :: ds).length + 2 * (d :: es).length - 1⟩ hstop1 hstop2
  have hne_stop : (⟨0, 2 * (c :: ds).length - 1⟩ : Fragment).stop
      ≠ (⟨2 * (c :: ds).length,
          2 * (c :: ds).length + 2 * (d :: es).length - 1⟩ : Fragment).stop := by
    show 2 * (c :: ds).length - 1
      ≠ 2 * (c :: ds).length + 2 * (d :: es).length - 1
    omega
  obtain ⟨hend1, hend2⟩ := hendsU hne_stop
  rw [hlen2] at hfragU hstartU hstopU hend1 hend2 hothU
  have hend1b : ((nfa2.union ⟨0, 2 * (c :: ds).length - 1⟩
      ⟨2 * (c :: ds).length,
        2 * (c :: ds).length + 2 * (d :: es).length - 1⟩).2).stateD
        (2 * (c :: ds).length - 1)
      = ((nfa2.stateD (2 * (c :: ds).length - 1)).insertEps
          (2 * (c :: ds).length + 2 * (d :: es).length + 1)).setAccepting
            false := hend1
  have hend2b : ((nfa2.union ⟨0, 2 * (c :: ds).length - 1⟩
      ⟨2 * (c :: ds).length,
        2 * (c :: ds).length + 2 * (d :: es).length - 1⟩).2).stateD
        (2 * (c :: ds).length + 2 * (d :: es).length - 1)
      = ((nfa2.stateD
          (2 * (c :: ds).length + 2 * (d :: es).length - 1)).insertEps
          (2 * (c :: ds).length + 2 * (d :: es).length + 1)).setAccepting
            false := hend2
  have hothb : ∀ i, i ≠ 2 * (c :: ds).length - 1 →
      i ≠ 2 * (c :: ds).length + 2 * (d :: es).length - 1 →
      i ≠ 2 * (c :: ds).length + 2 * (d :: es).length →
      i ≠ 2 * (c :: ds).length + 2 * (d :: es).length + 1 →
      ((nfa2.union ⟨0, 2 * (c :: ds).length - 1⟩
        ⟨2 * (c :: ds).length,
          2 * (c :: ds).length + 2 * (d :: es).length - 1⟩).2).stateD i
        = nfa2.stateD i := hothU
  have hstartb : ((nfa2.union ⟨0, 2 * (c :: ds).length - 1⟩
      ⟨2 * (c :: ds).length,
        2 * (c :: ds).length + 2 * (d :: es).length - 1⟩).2).stateD
        (2 * (c :: ds).length + 2 * (d :: es).length)
      = ((State.new (2 * (c :: ds).length + 2 * (d :: es).length)
          false).insertEps 0).insertEps (2 * (c :: ds).length) := hstartU
  refine ⟨(nfa2.union ⟨0, 2 * (c :: ds).length - 1⟩
    ⟨2 * (c :: ds).length,
      2 * (c :: ds).length + 2 * (d :: es).length - 1⟩).2,
    ?_, ?_, ?_, ?_, ?_, ?_⟩
  · have hparse : Nfa.new.parse ((c :: ds) ++ '|' :: d :: es)
        = some ((nfa2.union ⟨0, 2 * (c :: ds).length - 1⟩
            ⟨2 * (c :: ds).length,
              2 * (c :: ds).length + 2 * (d :: es).length - 1⟩).1,
          (nfa2.union ⟨0, 2 * (c :: ds).length - 1⟩
            ⟨2 * (c :: ds).length,
              2 * (c :: ds).length + 2 * (d :: es).length - 1⟩).2) := by
      rw [Nfa.parse, ieco_union c ds d es hc hds hd hes,
        toPostfix_union c ds d es hc hds hd hes, parseLoop_append,
        parseLoop_append, hpl1, Option.some_bind, hpl2, Option.some_bind]
      rfl
    have hstart' : ((nfa2.union ⟨0, 2 * (c :: ds).length - 1⟩
        ⟨2 * (c :: ds).length,
          2 * (c :: ds).length + 2 * (d :: es).length - 1⟩).1).start
        = 2 * (c :: ds).length + 2 * (d :: es).length := by
      rw [hfragU]
    rw [Regex.new, hparse]
    exact congrArg (fun x => some
      (⟨(nfa2.union ⟨0, 2 * (c :: ds).length - 1⟩
        ⟨2 * (c :: ds).length,
          2 * (c :: ds).length + 2 * (d :: es).length - 1⟩).2, x⟩ : Regex))
      hstart'
  · apply chainShape_consumed nfa2 _ 0 (c :: ds)
      (2 * (c :: ds).length + 2 * (d :: es).length + 1) hcs1b
    · intro i _ h2 h3
      exact hothb i (by omega) (by omega) (by omega) (by omega)
    · rw [show (0 : Nat) + 2 * (c :: ds).length - 1
        = 2 * (c :: ds).length - 1 from by omega]
      exact hend1b
    · intro x
      rw [hstopU]
      rfl
    · rw [Nfa.epsOf, hstopU]
      rfl
    · rw [hstopU]
      rfl
  · apply chainShape_consumed nfa2 _ (2 * (c :: ds).length) (d :: es)
      (2 * (c :: ds).length + 2 * (d :: es).length + 1) hcs2
    · intro i h1 h2 h3
      exact hothb i (by omega) (by omega) (by omega) (by omega)
    · exact hend2b
    · intro x
      rw [hstopU]
      rfl
    · rw [Nfa.epsOf, hstopU]
      rfl
    · rw [hstopU]
      rfl
  · rw [Nfa.epsOf, hstartb]
    show (((State.new (2 * (c :: ds).length + 2 * (d :: es).length)
        false).insertEps 0).insertEps
        (2 * (c :: ds).length)).epsilon_transitions
      = [0, 2 * (c :: ds).length]
    have hmne : 2 * (c :: ds).length ≠ 0 := by simp
    simp [State.insertEps, State.new, hmne]
  · intro x
    rw [hstartb]
    rfl
  · rw [hstartb]
    rfl

end RegexThompson

namespace RegexThompson

theorem stepChar_union (nfa : Nfa) (A B : Finset Nat) (d : Char) :
    nfa.stepChar (A ∪ B) d = nfa.stepChar A d ∪ nfa.stepChar B d := by
  rw [Nfa.stepChar, Nfa.stepChar, Nfa.stepChar]
  ext x
  simp only [Finset.mem_biUnion, Finset.mem_union]
  constructor
  · rintro ⟨a, ha | ha, hx⟩
    · exact Or.inl ⟨a, ha, hx⟩
    · exact Or.inr ⟨a, ha, hx⟩
  · rintro (⟨a, ha, hx⟩ | ⟨a, ha, hx⟩)
    · exact ⟨a, Or.inl ha, hx⟩
    · exact ⟨a, Or.inr ha, hx⟩

theorem foldl_step_union (nfa : Nfa) (s : List Char) :
    ∀ A B : Finset Nat, s.foldl nfa.stepChar (A ∪ B)
      = s.foldl nfa.stepChar A ∪ s.foldl nfa.stepChar B := by
  induction s with
  | nil => intro A B; rfl
  | cons d rest ih =>
    intro A B
    rw [List.foldl_cons, List.foldl_cons, List.foldl_cons,
      stepChar_union nfa A B d]
    exact ih _ _

theorem decide_exists_acc_union (nfa : Nfa) (A B : Finset Nat) :
    decide (∃ st ∈ A ∪ B, (nfa.stateD st).accepting = true)
      = (decide (∃ st ∈ A, (nfa.stateD st).accepting = true)
        || decide (∃ st ∈ B, (nfa.stateD st).accepting = true)) := by
  rw [← Bool.decide_or]
  apply decide_eq_decide.mpr
  constructor
  · rintro ⟨st, hst, hp⟩
    rcases Finset.mem_union.mp hst with h | h
    · exact Or.inl ⟨st, h, hp⟩
    · exact Or.inr ⟨st, h, hp⟩
  · rintro (⟨st, h, hp⟩ | ⟨st, h, hp⟩)
    · exact ⟨st, Finset.mem_union_left _ h, hp⟩
    · exact ⟨st, Finset.mem_union_right _ h, hp⟩

theorem dead_start_fold (nfa : Nfa) (v : Nat)
    (htrans : ∀ x, (nfa.stateD v).transitions x = none)
    (hacc : (nfa.stateD v).accepting = false) (s : List Char) :
    decide (∃ st ∈ s.foldl nfa.stepChar ({v} : Finset Nat),
      (nfa.stateD st).accepting = true) = false := by
  cases s with
  | nil =>
    rw [List.foldl_nil]
    apply decide_eq_false
    rintro ⟨st, hst, h⟩
    rw [Finset.mem_singleton] at hst
    subst hst
    rw [hacc] at h
    exact Bool.noConfusion h
  | cons dd rest =>
    rw [List.foldl_cons]
    have hstep : nfa.stepChar {v} dd = ∅ := by
      rw [Nfa.stepChar, Finset.singleton_biUnion,
        contrib_dead nfa v dd htrans]
    rw [hstep, foldl_step_empty]
    apply decide_eq_false
    rintro ⟨st, hst, h⟩
    exact absurd hst (Finset.not_mem_empty st)

/-- C1 (amended): union law for nonempty literal alternatives.  For all
nonempty patterns `p` and `q` consisting only of literal symbols (no operator
characters) and every input `s`, `compile(p)`, `compile(q)` and
`compile(p + "|" + q)` all succeed and
`matches(compile(p+"|"+q), s) = matches(compile(p), s) || matches(compile(q), s)`.
(The unrestricted law fails, e.g. at `p = "(a"`, `q = "b)"`: see the
counterexample.) -/
theorem claim1_union_literal (p q s : List Char) (hpne : p ≠ [])
    (hqne : q ≠ []) (hpl : ∀ x ∈ p, isLit x) (hql : ∀ x ∈ q, isLit x) :
    ∃ b1 b2 : Bool, is_match p s = some b1 ∧ is_match q s = some b2 ∧
      is_match (p ++ '|' :: q) s = some (b1 || b2) := by
  obtain ⟨c, ds, rfl⟩ : ∃ c ds, p = c :: ds := by
    cases p with
    | nil => exact absurd rfl hpne
    | cons c ds => exact ⟨c, ds, rfl⟩
  obtain ⟨d, es, rfl⟩ : ∃ d es, q = d :: es := by
    cases q with
    | nil => exact absurd rfl hqne
    | cons d es => exact ⟨d, es, rfl⟩
  have hc : isLit c := hpl c (by simp)
  have hds : ∀ x ∈ ds, isLit x := fun x hx => hpl x (by simp [hx])
  have hd : isLit d := hql d (by simp)
  have hes : ∀ x ∈ es, isLit x := fun x hx => hql x (by simp [hx])
  refine ⟨chainAcceptList (c :: ds) s, chainAcceptList (d :: es) s,
    chain_is_match c ds hc hds s, chain_is_match d es hd hes s, ?_⟩
  obtain ⟨U, hnew, hcsU1, hcsU2, hepsN, htrN, haccN⟩ :=
    union_compile c ds d es hc hds hd hes
  rw [is_match, hnew]
  show some (Regex.matches
    ⟨U, 2 * (c :: ds).length + 2 * (d :: es).length⟩ s) = _
  congr 1
  simp only [Regex.matches, Nfa.matches]
  have h0eps : U.epsOf 0 = [] := by
    have h := hcsU1.evenEps 0 (by simp)
    simpa using h
  have h2meps : U.epsOf (2 * (c :: ds).length) = [] := by
    have h := hcsU2.evenEps 0 (by simp)
    simpa using h
  have hclos : U.epsilon_closure
      (2 * (c :: ds).length + 2 * (d :: es).length)
      = ({2 * (c :: ds).length + 2 * (d :: es).length} : Finset Nat)
        ∪ (({0} : Finset Nat) ∪ ({2 * (c :: ds).length} : Finset Nat)) := by
    have hS : U.epsilon_closure
        (2 * (c :: ds).length + 2 * (d :: es).length)
        = ({2 * (c :: ds).length + 2 * (d :: es).length, 0,
            2 * (c :: ds).length} : Finset Nat) := by
      apply eps_closure_eq
      · simp
      · intro v hv t ht
        simp only [Finset.mem_insert, Finset.mem_singleton] at hv
        rcases hv with rfl | rfl | rfl
        · rw [hepsN] at ht
          simp only [List.mem_cons, List.not_mem_nil, or_false] at ht
          rcases ht with rfl | rfl
          · simp
          · simp
        · rw [h0eps] at ht
          exact absurd ht (List.not_mem_nil t)
        · rw [h2meps] at ht
          exact absurd ht (List.not_mem_nil t)
      · intro x hx
        simp only [Finset.mem_insert, Finset.mem_singleton] at hx
        rcases hx with rfl | rfl | rfl
        · exact reach_refl _ _
        · exact reach_single _ _ _ (by rw [hepsN]; simp)
        · exact reach_single _ _ _ (by rw [hepsN]; simp)
    rw [hS]
    ext x
    simp
  rw [hclos, foldl_step_union, foldl_step_union, decide_exists_acc_union,
    decide_exists_acc_union,
    dead_start_fold U (2 * (c :: ds).length + 2 * (d :: es).length) htrN
      haccN s]
  have hd1 : ({0} : Finset Nat) = chainDom 0 (c :: ds).length 0
      (some (2 * (c :: ds).length + 2 * (d :: es).length + 1)) := by
    rw [chainDom, if_pos rfl]
  have hd2 : ({2 * (c :: ds).length} : Finset Nat)
      = chainDom (2 * (c :: ds).length) (d :: es).length 0
        (some (2 * (c :: ds).length + 2 * (d :: es).length + 1)) := by
    rw [chainDom, if_pos rfl]
  rw [hd1, hd2,
    chain_sim U 0 (c :: ds)
      (some (2 * (c :: ds).length + 2 * (d :: es).length + 1)) hcsU1 s 0
      (by omega),
    chain_sim U (2 * (c :: ds).length) (d :: es)
      (some (2 * (c :: ds).length + 2 * (d :: es).length + 1)) hcsU2 s 0
      (by omega),
    List.drop_zero, List.drop_zero, Bool.false_or]

theorem claim1_witness :
    ['a'] ≠ ([] : List Char) ∧ ['b'] ≠ ([] : List Char) ∧
      (∀ x ∈ (['a'] : List Char), isLit x) ∧
      (∀ x ∈ (['b'] : List Char), isLit x) ∧
      ∃ b1 b2 : Bool, is_match ['a'] ['a'] = some b1 ∧
        is_match ['b'] ['a'] = some b2 ∧
        is_match (['a'] ++ '|' :: ['b']) ['a'] = some (b1 || b2) :=
  ⟨by decide, by decide, by decide, by decide,
    claim1_union_literal ['a'] ['b'] ['a'] (by decide) (by decide)
      (by decide) (by decide)⟩

end RegexThompson
